import Mathlib

/-!
# Verification of the Lab03-Redes routing simulator

A shallow embedding, in Lean 4, of the core functions of the repository:

* `src/topology.py` — regex-based topology parsing into a symmetric weighted graph;
* `src/dijkstra.py` — heap-based Dijkstra and next-hop table construction;
* `src/flooding.py` — ordered-header folding, address-to-node decoding, and the
  flooding forwarding strategy;
* `src/simulator.py` — the address codec, the selection-based Dijkstra variant and
  the link-state node's conditional forwarding.

Python dictionaries are embedded as association lists in insertion order
(`alook` / `updA` mirror `d[k]` / `d[k] = v`), Python `float("inf")` distances as
`ℕ∞`, fallible dictionary indexing as `Option`, and unbounded `while` loops as
fuel-based recursion where the fuel is proved (or chosen) large enough to cover
every terminating run.
-/

namespace Redes

/-! ## Python dictionary primitives

An association list in insertion order models a Python `dict`.  `alook` is `d.get(k)`
(first matching key wins; the keys are kept `Nodup`, as in a real `dict`), and
`updA` is `d[k] = v`: it overwrites in place if the key is present and appends
otherwise, preserving insertion order exactly as CPython does. -/

def alook {α : Type} (l : List (String × α)) (k : String) : Option α :=
  match l with
  | [] => none
  | p :: ps => if p.1 = k then some p.2 else alook ps k

def updA {α : Type} (l : List (String × α)) (k : String) (v : α) : List (String × α) :=
  if (alook l k).isSome then
    l.map (fun p => if p.1 = k then (k, v) else p)
  else
    l ++ [(k, v)]

def keysOf {α : Type} (l : List (String × α)) : List String := l.map Prod.fst

/-- `if x in s: pass else: s.add(x)` — a Python `set` modelled as a duplicate-free
list; only membership is ever observed. -/
def pySetAdd {α : Type} [DecidableEq α] (s : List α) (x : α) : List α :=
  if x ∈ s then s else s ++ [x]

/-! ## Decimal rendering and parsing

`natReprChars n` is the decimal rendering of `n`, the semantics of Python's
`f"{n}"` for a nonnegative integer; `pyInt` is Python's `int(s)` on a clean
(sign + digits) string, `none` standing for the `ValueError` branch. -/

def digitChar (d : Nat) : Char :=
  if d = 0 then '0' else if d = 1 then '1' else if d = 2 then '2'
  else if d = 3 then '3' else if d = 4 then '4' else if d = 5 then '5'
  else if d = 6 then '6' else if d = 7 then '7' else if d = 8 then '8' else '9'

def natReprGo : Nat → Nat → List Char
  | 0, _ => []
  | fuel + 1, n =>
    if n < 10 then [digitChar n] else natReprGo fuel (n / 10) ++ [digitChar (n % 10)]

def natReprChars (n : Nat) : List Char := natReprGo (n + 1) n

/-- `f"{n}"` for a Python `int` (possibly negative). -/
def intReprChars (n : Int) : List Char :=
  if n < 0 then '-' :: natReprChars n.natAbs else natReprChars n.toNat

def charVal (c : Char) : Nat := c.toNat - 48

def natOfDigits (l : List Char) : Nat := l.foldl (fun a c => 10 * a + charVal c) 0

/-- `int(s)` on an unsigned digit string; `none` is the `ValueError` case.
(Python also tolerates surrounding whitespace and underscores; no caller in this
repository ever passes such a string.) -/
def pyIntNat (l : List Char) : Option Nat :=
  match l with
  | [] => none
  | _ => if l.all Char.isDigit then some (natOfDigits l) else none

/-- `int(s)` with an optional sign. -/
def pyInt (l : List Char) : Option Int :=
  match l with
  | [] => none
  | c :: ds =>
    if c = '-' then (pyIntNat ds).map (fun n => -(n : Int))
    else if c = '+' then (pyIntNat ds).map (fun n => (n : Int))
    else (pyIntNat (c :: ds)).map (fun n => (n : Int))

/-! ## `address.split(".")[-1]` and `s.replace("nodo", "")` -/

/-- Python's `s.split(".")`: the result is never empty. -/
def splitOnDot : List Char → List (List Char)
  | [] => [[]]
  | c :: cs =>
    if c = '.' then [] :: splitOnDot cs
    else
      match splitOnDot cs with
      | [] => [[c]]
      | s :: rest => (c :: s) :: rest

/-- `address.split(".")[-1]`. -/
def lastSeg (l : List Char) : List Char := (splitOnDot l).getLastD []

/-- `s.replace("nodo", "")`: remove every non-overlapping occurrence of `"nodo"`,
scanning left to right. -/
def replaceNodo : List Char → List Char
  | 'n' :: 'o' :: 'd' :: 'o' :: rest => replaceNodo rest
  | c :: cs => c :: replaceNodo cs
  | [] => []

/-! ## The address codec (`simulator.py` lines 10–36, `flooding.py` lines 13–21)

`node_of` is identical in both files.  `address_of` calls `int(node[1:])`, which
raises on a malformed node id, hence the `Option`. -/

/-- `node_of(address)`: `"sec30.<group>.nodo3" -> "N3"`, returning the input
unchanged when the trailing segment does not parse. -/
def node_of (address : String) : String :=
  match pyInt (replaceNodo (lastSeg address.data)) with
  | some num => String.mk ('N' :: intReprChars num)
  | none => address

/-- `address_of(node, group)`: `"N3" -> "sec30.<group>.nodo3"`. -/
def address_of (node : String) (group : String) : Option String :=
  (pyInt (node.data.drop 1)).map (fun n =>
    String.mk ("sec30.".data ++ group.data ++ ".nodo".data ++ intReprChars n))

/-- `re.sub(r'\d+$', '', my_group or '')`. -/
def stripTrailingDigits (l : List Char) : List Char :=
  (l.reverse.dropWhile Char.isDigit).reverse

/-- `group_for_node(node, my_group)`: derive the group of `node` by replacing the
trailing digits of the local group with the node's number. -/
def group_for_node (node my_group : String) : Option String :=
  (pyInt (node.data.drop 1)).map (fun n =>
    String.mk (stripTrailingDigits my_group.data ++ intReprChars n))

/-- `address_for_dest(node, my_group) = address_of(node, group_for_node(node, my_group))`. -/
def address_for_dest (node my_group : String) : Option String :=
  (group_for_node node my_group).bind (fun g => address_of node g)

/-! ## Graphs

`Graph = Dict[str, Dict[str, int]]` with the nonnegative integer weights produced
by `parse_topology`. -/

abbrev Graph := List (String × List (String × Nat))

/-- `graph[u][v]` (as an optional read). -/
def lookupW (g : Graph) (u v : String) : Option Nat :=
  (alook g u).bind (fun adj => alook adj v)

/-- Well-formedness facts every graph built by the Python code enjoys: duplicate-free
keys (it is a `dict` of `dict`s), symmetric entries, strictly positive weights. -/
def GoodGraph (g : Graph) : Prop :=
  (keysOf g).Nodup ∧
  (∀ p ∈ g, (keysOf p.2).Nodup) ∧
  (∀ p ∈ g, ∀ q ∈ p.2, lookupW g q.1 p.1 = some q.2) ∧
  (∀ p ∈ g, ∀ q ∈ p.2, 1 ≤ q.2)

instance : DecidablePred GoodGraph := fun g => by
  unfold GoodGraph; infer_instance

/-- Every neighbour id that occurs in an adjacency map is itself a key of the
graph — the closure property the unguarded `graph[u]` / `dist[v]` reads of
`dijkstra.py` rely on. -/
def ClosedGraph (g : Graph) : Prop :=
  ∀ p ∈ g, ∀ q ∈ p.2, (alook g q.1).isSome

instance : DecidablePred ClosedGraph := fun g => by
  unfold ClosedGraph; infer_instance

/-- Cost-`c` walks from `u` to `t` along graph edges; the "paths from source" the
specification's minimum ranges over. -/
inductive PathCost (g : Graph) : String → String → Nat → Prop
  | refl (v : String) : PathCost g v v 0
  | step {u v t : String} {w c : Nat} :
      lookupW g u v = some w → PathCost g v t c → PathCost g u t (w + c)

/-! ## `flooding.py`: header folding and message structure -/

/-- `headers_to_dict` builds `d` by `d.update(item)` over the items in order:
for each key of `item` (in order) set `d[k] = v`. -/
def dict_update {α : Type} (d : List (String × α)) (item : List (String × α)) :
    List (String × α) :=
  item.foldl (fun acc p => updA acc p.1 p.2) d

/-- `headers_to_dict(hlist)` — the left fold of the ordered header sequence;
`none` models passing Python `None`. -/
def headers_to_dict {α : Type} (hl : Option (List (List (String × α)))) :
    List (String × α) :=
  (hl.getD []).foldl dict_update []

/-- `dict_to_headers(d) = [{k: v} for k, v in d.items()]`. -/
def dict_to_headers {α : Type} (d : List (String × α)) : List (List (String × α)) :=
  d.map (fun p => [(p.1, p.2)])

/-- Header values occurring in the flooding protocol: node-id strings, integer
costs, and string-list paths. -/
inductive HVal where
  | str (s : String)
  | int (n : Int)
  | list (l : List String)
deriving DecidableEq

/-- `list(x)` applied to a header value: a list is copied, a string becomes its
characters, and `list(int)` is a `TypeError` (`none`). -/
def pyList (v : HVal) : Option (List String) :=
  match v with
  | HVal.list l => some l
  | HVal.str s => some (s.data.map (fun c => String.mk [c]))
  | HVal.int _ => none

/-- The wire message as the flooding handler reads it.  `mfrom` / `mto` are the
Python `"from"` / `"to"` keys; a `none` field is an absent key (every read in the
source goes through `msg.get` except `msg["payload"]`). -/
structure Msg where
  message_id : Option String
  mfrom : Option String
  mto : Option String
  ttl : Option Int
  headers : Option (List (List (String × HVal)))
  payload : Option String
deriving DecidableEq

/-- The router state `FloodingStrategy.handle_message` touches. -/
structure Router where
  me : String
  listen_channel : String
  graph : Graph
  seen_ids : List (Option String)
deriving DecidableEq

namespace FloodingStrategy

/-- The folded `via` header of a message. -/
def lastViaOf (m : Msg) : Option HVal := alook (headers_to_dict m.headers) "via"

/-- `list(h.get("path", []))`: the initial path list, `none` being the
`TypeError` raised by `list(...)` on a non-sequence header value. -/
def floodPath0 (m : Msg) : Option (List String) :=
  match alook (headers_to_dict m.headers) "path" with
  | some hv => pyList hv
  | none => some []

/-- `FloodingStrategy.handle_message(router, msg)`, as a pure function returning
the updated router, the list of `(channel, message)` publications, and the list
of payloads delivered locally.  `none` models an uncaught exception
(`KeyError` on `router.graph[router.me]` / `msg["payload"]`, or `TypeError`
from `list(...)` on a non-sequence path header). -/
def handle_message (r : Router) (m : Msg) :
    Option (Router × List (String × Msg) × List String) :=
  if m.message_id ∈ r.seen_ids then some (r, [], [])
  else
    let r1 : Router := { r with seen_ids := pySetAdd r.seen_ids m.message_id }
    if node_of (m.mto.getD "") = r.me ∨ m.mto.getD "" = r.listen_channel then
      match m.payload with
      | none => none
      | some pl => some (r1, [], [pl])
    else
      match floodPath0 m with
      | none => none
      | some p0 =>
        let p1 := if p0 = [] then [node_of (m.mfrom.getD r.listen_channel)] else p0
        let path := if p1 = [] ∨ p1.getLast? ≠ some r.me then p1 ++ [r.me] else p1
        match alook r.graph r.me with
        | none => none
        | some adj =>
          let fanout :=
            (adj.map Prod.fst).filter (fun nb => decide (¬ lastViaOf m = some (HVal.str nb)))
          let ttl1 := m.ttl.getD 0 - 1
          let pubs := fanout.filterMap (fun nb =>
            if ttl1 ≤ 0 then none
            else
              let cost0 := (alook (headers_to_dict m.headers) "cost").getD (HVal.int 0)
              let cost1 :=
                match cost0, alook adj nb with
                | HVal.int c, some w => HVal.int (c + (w : Int))
                | c0, _ => c0
              let hh :=
                dict_update (headers_to_dict m.headers)
                  [("via", HVal.str r.me), ("path", HVal.list path), ("cost", cost1)]
              some (nb, { m with ttl := some ttl1, headers := some (dict_to_headers hh) }))
          some (r1, pubs, [])

end FloodingStrategy

/-! ## `simulator.py`: the link-state node's conditional forwarding -/

/-- One adjacency record of the topology table: a Python dict with optional
`"weight"`, `"time"`, `"age"` keys. -/
structure AdjMeta where
  weight : Option Int
  time : Option Int
  age : Option Int
deriving DecidableEq

/-- The node state read and written by `_forward_message_if_changed` and
`_live_neighbors`. -/
structure NodeSt where
  me : String
  group : String
  topo : List (String × List (String × AdjMeta))
  nochange_count : Nat
  stable_nochange : Int
deriving DecidableEq

namespace Node

/-- `_live_neighbors`: direct neighbours in `topo[me]` whose `time` is positive. -/
def live_neighbors (n : NodeSt) : List String :=
  ((alook n.topo n.me).getD []).filterMap
    (fun p => if 0 < p.2.time.getD 0 then some p.1 else none)

/-- `_forward_message_if_changed(msg, changed)`, as a pure function returning the
updated node, the `(channel, message)` publications, and whether a shortest-path
recomputation was triggered.  A `none` channel models the `ValueError` that
`address_for_dest` would raise on a malformed neighbour id. -/
def forward_message_if_changed {α : Type} (n : NodeSt) (msg : α) (changed : Bool) :
    NodeSt × List (Option String × α) × Bool :=
  if changed = false then
    let c := n.nochange_count + 1
    if n.stable_nochange ≤ (c : Int) then
      ({ n with nochange_count := 0 }, [], true)
    else
      ({ n with nochange_count := c }, [], false)
  else
    ({ n with nochange_count := 0 },
     (live_neighbors n).map (fun out => (address_for_dest out n.group, msg)),
     false)

end Node

/-! ## `topology.py`: the edge scanner

`EDGE_RE = re.compile(r"N(\d+)-N(\d+):(\d+)")` scanned with `findall` over the
text after `"\n"` is replaced by `" "`: leftmost, non-overlapping matches.
Each `\d+` is greedy, and since a digit can never match the literal that follows
it in the pattern, maximal-munch digit runs are exact (the regex engine never
needs to backtrack into them).  `\d` is modelled as an ASCII digit. -/

def takeDigits : List Char → List Char × List Char
  | [] => ([], [])
  | c :: cs =>
    if c.isDigit then
      match takeDigits cs with
      | (d, r) => (c :: d, r)
    else ([], c :: cs)

/-- Consume one expected literal character. -/
def expectChar (c : Char) (l : List Char) : Option (List Char) :=
  match l with
  | [] => none
  | x :: xs => if x = c then some xs else none

/-- Consume a nonempty maximal digit run (`\d+`; greedy maximal-munch is exact
here because a digit never matches the literal that follows it). -/
def expectDigits (l : List Char) : Option (List Char × List Char) :=
  if (takeDigits l).1 = [] then none else some (takeDigits l)

/-- Attempt to match `N(\d+)-N(\d+):(\d+)` anchored at the head of `l`; on
success return the three captured digit strings and the unread suffix. -/
def matchEdgeAt (l : List Char) : Option ((List Char × List Char × List Char) × List Char) :=
  (expectChar 'N' l).bind (fun r1 =>
  (expectDigits r1).bind (fun p1 =>
  (expectChar '-' p1.2).bind (fun r3 =>
  (expectChar 'N' r3).bind (fun r4 =>
  (expectDigits r4).bind (fun p2 =>
  (expectChar ':' p2.2).bind (fun r6 =>
  (expectDigits r6).map (fun p3 => ((p1.1, p2.1, p3.1), p3.2))))))))

/-- `findall`: try to match at each position, consuming matches, advancing one
character on failure.  The fuel `l.length` covers the whole scan (each step
consumes at least one character). -/
def findEdgesGo : Nat → List Char → List (List Char × List Char × List Char)
  | 0, _ => []
  | _, [] => []
  | fuel + 1, c :: cs =>
    match matchEdgeAt (c :: cs) with
    | some (e, rest) => e :: findEdgesGo fuel rest
    | none => findEdgesGo fuel cs

def findEdges (l : List Char) : List (List Char × List Char × List Char) :=
  findEdgesGo l.length l

/-- `text.replace("\n", " ")`. -/
def replaceNewlines (l : List Char) : List Char :=
  l.map (fun c => if c = '\n' then ' ' else c)

/-- `g[a][b] = w` on a `defaultdict(dict)`. -/
def updG (g : Graph) (a b : String) (w : Nat) : Graph :=
  updA g a (updA ((alook g a).getD []) b w)

/-- One iteration of the `for n1, n2, w in EDGE_RE.findall(...)` loop:
`g[a][b] = w; g[b][a] = w` with `a = f"N{n1}"`, `b = f"N{n2}"`, `w = int(w)`. -/
def addEdge (g : Graph) (e : List Char × List Char × List Char) : Graph :=
  let a := String.mk ('N' :: e.1)
  let b := String.mk ('N' :: e.2.1)
  let w := natOfDigits e.2.2
  updG (updG g a b w) b a w

/-- `parse_topology(text)`. -/
def parse_topology (text : String) : Graph :=
  (findEdges (replaceNewlines text.data)).foldl addEdge []

/-! ## `dijkstra.py`: heap-based Dijkstra

`heapq` holds `(int, str)` pairs and pops the lexicographic minimum.  The heap
is modelled as a bare list (its internal layout is never observable: only the
minimum is ever removed); `float("inf")` distances live in `ℕ∞`.  `dist` has the
fixed key set `graph.keys() | {source}`, so the `KeyError` raised by
`dist[v]` (and by `graph[u]`) is modelled by an explicit domain test, `none`
standing for the uncaught exception.  The `while pq` loop runs on fuel that is
proved sufficient below. -/

def pairLeB (a b : Nat × String) : Bool :=
  if a.1 < b.1 then true else if a.1 = b.1 then decide (a.2 ≤ b.2) else false

def findMin : List (Nat × String) → Option (Nat × String)
  | [] => none
  | x :: xs =>
    match findMin xs with
    | none => some x
    | some m => some (if pairLeB x m then x else m)

/-- `heapq.heappop`: remove and return the smallest `(d, u)` pair. -/
def popMin (l : List (Nat × String)) : Option ((Nat × String) × List (Nat × String)) :=
  match findMin l with
  | none => none
  | some m => some (m, l.erase m)

structure DijkState where
  dist : String → ℕ∞
  prev : List (String × String)
  pq : List (Nat × String)
  visited : List String

/-- The `for v, w in graph[u].items()` relaxation loop of a settled vertex `u`
popped with distance `d`.  The guard is the domain of the `dist` dictionary,
`graph.keys() | {source}`: reading `dist[v]` outside it raises (`none`). -/
def relaxAll (g : Graph) (s : String) (d : Nat) (u : String) :
    List (String × Nat) → DijkState → Option DijkState
  | [], st => some st
  | (v, w) :: rest, st =>
    if (alook g v).isSome ∨ v = s then
      let alt := d + w
      if (alt : ℕ∞) < st.dist v then
        relaxAll g s d u rest
          { dist := fun x => if x = v then (alt : ℕ∞) else st.dist x,
            prev := updA st.prev v u,
            pq := st.pq ++ [(alt, v)],
            visited := st.visited }
      else relaxAll g s d u rest st
    else none

def dijkstraLoop (g : Graph) (s : String) :
    Nat → DijkState → Option ((String → ℕ∞) × List (String × String))
  | 0, _ => none
  | fuel + 1, st =>
    match popMin st.pq with
    | none => some (st.dist, st.prev)
    | some (du, rest) =>
      if du.2 ∈ st.visited then dijkstraLoop g s fuel { st with pq := rest }
      else
        match alook g du.2 with
        | none => none
        | some adj =>
          match relaxAll g s du.1 du.2 adj
              { st with pq := rest, visited := du.2 :: st.visited } with
          | none => none
          | some st2 => dijkstraLoop g s fuel st2

def sizeSum (g : Graph) : Nat := (g.map (fun p => p.2.length)).sum

/-- Fuel bounding the number of `while pq` iterations: every pop either discards
a visited entry or settles a fresh vertex, pushing at most its degree. -/
def dijkFuel (g : Graph) : Nat := 2 + g.length + sizeSum g

def initState (s : String) : DijkState :=
  { dist := fun v => if v = s then 0 else ⊤,
    prev := [],
    pq := [(0, s)],
    visited := [] }

/-- `dijkstra(graph, source)` from `dijkstra.py`; `none` is an uncaught
`KeyError`. -/
def dijkstra (g : Graph) (s : String) :
    Option ((String → ℕ∞) × List (String × String)) :=
  dijkstraLoop g s (dijkFuel g) (initState s)

/-- The `while cur in prev and prev[cur] != source` walk of `build_next_hop`,
returning the final `cur`.  The Python loop diverges on a cyclic `prev`; the
fuel `prev.length + 1` covers every terminating run (a terminating walk never
revisits a node), and `none` marks the runs on which Python would never
return. -/
def walkToSource (source : String) (prev : List (String × String)) :
    Nat → String → Option String
  | 0, _ => none
  | fuel + 1, cur =>
    match alook prev cur with
    | none => some cur
    | some p => if p = source then some cur else walkToSource source prev fuel p

def buildNextHopGo (source : String) (prev : List (String × String)) :
    List String → List (String × String) → Option (List (String × String))
  | [], acc => some acc
  | dest :: rest, acc =>
    if dest = source then buildNextHopGo source prev rest acc
    else
      match walkToSource source prev (prev.length + 1) dest with
      | none => none
      | some cur =>
        if alook prev cur = some source then
          buildNextHopGo source prev rest (updA acc dest cur)
        else buildNextHopGo source prev rest acc

/-- `build_next_hop(source, prev)` from `dijkstra.py`. -/
def build_next_hop (source : String) (prev : List (String × String)) :
    Option (List (String × String)) :=
  buildNextHopGo source prev (keysOf prev) []

/-! ## `simulator.py`: the selection-based Dijkstra variant

This variant guards every dictionary read (`graph.get(u, {})`,
`dist.get(v, float("inf"))`), so it is a total function.  `dist` is kept as an
association list because the selection scans `dist.items()` in insertion
order (first strict minimum wins). -/

/-- The `u = None; best = inf; for k, d in dist.items(): ...` selection. -/
def selectMin (dist : List (String × ℕ∞)) (visited : List String) :
    Option (String × ℕ∞) :=
  let acc := dist.foldl
    (fun acc p =>
      if p.1 ∉ visited ∧ p.2 < acc.1 then (p.2, some p.1) else acc)
    ((⊤ : ℕ∞), (none : Option String))
  match acc.2 with
  | none => none
  | some u => some (u, acc.1)

def simulator_dijkstra_loop (g : Graph) :
    Nat → List (String × ℕ∞) → List (String × String) → List String →
    List (String × ℕ∞) × List (String × String)
  | 0, dist, prev, _ => (dist, prev)
  | fuel + 1, dist, prev, visited =>
    match selectMin dist visited with
    | none => (dist, prev)
    | some (u, du) =>
      let adj := (alook g u).getD []
      let dp := adj.foldl
        (fun dp q =>
          let nd := du + (q.2 : ℕ∞)
          if nd < (alook dp.1 q.1).getD ⊤ then (updA dp.1 q.1 nd, updA dp.2 q.1 u)
          else dp)
        (dist, prev)
      simulator_dijkstra_loop g fuel dp.1 dp.2 (u :: visited)

/-- `dijkstra(graph, src)` from `simulator.py` (total: every read is guarded). -/
def simulator_dijkstra (g : Graph) (src : String) :
    List (String × ℕ∞) × List (String × String) :=
  let dist0 := updA (g.map (fun p => (p.1, (⊤ : ℕ∞)))) src 0
  simulator_dijkstra_loop g (g.length + sizeSum g + 2) dist0 [] []

/-! ## Concrete fixtures used by witnesses and counterexamples -/

/-- The specification's worked example: `N1-N2:10, N2-N3:14, N1-N3:30`. -/
def gEx : Graph :=
  [("N1", [("N2", 10), ("N3", 30)]),
   ("N2", [("N1", 10), ("N3", 14)]),
   ("N3", [("N2", 14), ("N1", 30)])]

/-- A graph that is not closed under neighbours: `"N2"` occurs as a neighbour
but is not a key. -/
def gBad : Graph := [("N1", [("N2", 5)])]

/-- Modelled from the spec's claim wording, for comparison with the code: the
fanout the claim predicts — the node's neighbours minus the last hop, where the
last hop is the folded `via` header when present and otherwise the node id
derived from the message's `from` address. -/
def specFanoutC4 (r : Router) (m : Msg) : List String :=
  let lastHop : String :=
    match FloodingStrategy.lastViaOf m with
    | some (HVal.str v) => v
    | _ => node_of (m.mfrom.getD r.listen_channel)
  (((alook r.graph r.me).getD []).map Prod.fst).filter (fun nb => decide (¬ nb = lastHop))

/-- A two-node router whose neighbour `N2` is the apparent sender of `mEx`. -/
def rEx : Router :=
  { me := "N1",
    listen_channel := "sec30.g.nodo1",
    graph := [("N1", [("N2", 1)]), ("N2", [("N1", 1)])],
    seen_ids := [] }

/-- A fresh flood message with no `via` header whose `from` address decodes to
the neighbour `N2`. -/
def mEx : Msg :=
  { message_id := some "m1",
    mfrom := some "sec30.g.nodo2",
    mto := some "sec30.g.nodo3",
    ttl := some 5,
    headers := none,
    payload := some "hi" }

/-- Modelled from the spec's wording: the value carried by the last entry of the
header sequence that contains the key. -/
def lastHeaderEntryValue {α : Type} (hl : Option (List (List (String × α)))) (k : String) :
    Option α :=
  ((hl.getD []).reverse.find? (fun item => (alook item k).isSome)).bind
    (fun item => alook item k)

/-- The canonical node identifier `N<k>`. -/
def mkNodeId (k : Nat) : String := String.mk ('N' :: natReprChars k)

/-- A router that has already seen `mEx`'s message id. -/
def rSeen : Router :=
  { me := "N1", listen_channel := "sec30.g.nodo1", graph := [], seen_ids := [some "m1"] }

/-- A fresh flood message carrying `via = N2` in its headers. -/
def mVia : Msg :=
  { message_id := some "m2",
    mfrom := some "sec30.g.nodo5",
    mto := some "sec30.g.nodo3",
    ttl := some 5,
    headers := some [[("via", HVal.str "N2")]],
    payload := some "hi" }

/-- A node one reception away from its no-change stability threshold. -/
def nEx1 : NodeSt :=
  { me := "N1", group := "g", topo := [], nochange_count := 4, stable_nochange := 5 }

/-- A node far from its no-change stability threshold. -/
def nEx2 : NodeSt :=
  { me := "N1", group := "g", topo := [], nochange_count := 0, stable_nochange := 5 }

/-! # Lemmas and theorems -/

/-! ## Association-list lemmas -/

theorem alook_cons {α : Type} (p : String × α) (l : List (String × α)) (k : String) :
    alook (p :: l) k = if p.1 = k then some p.2 else alook l k := rfl

theorem alook_map_replace_self {α : Type} {l : List (String × α)} {k : String} (v : α)
    (h : (alook l k).isSome) :
    alook (l.map (fun p => if p.1 = k then (k, v) else p)) k = some v := by
  induction l with
  | nil => simp [alook] at h
  | cons p ps ih =>
    by_cases hp : p.1 = k
    · simp [alook, hp]
    · rw [alook_cons, if_neg hp] at h
      simp only [List.map_cons, if_neg hp, alook_cons, if_neg hp]
      exact ih h

theorem alook_map_replace_ne {α : Type} (l : List (String × α)) (k : String) (v : α)
    {k2 : String} (h : k2 ≠ k) :
    alook (l.map (fun p => if p.1 = k then (k, v) else p)) k2 = alook l k2 := by
  induction l with
  | nil => rfl
  | cons p ps ih =>
    by_cases hp : p.1 = k
    · have : k ≠ k2 := fun hc => h hc.symm
      simp only [List.map_cons, if_pos hp, alook_cons, if_neg this, if_neg (hp ▸ this)]
      exact ih
    · simp only [List.map_cons, if_neg hp, alook_cons]
      by_cases hq : p.1 = k2
      · simp [hq]
      · rw [if_neg hq, if_neg hq]; exact ih

theorem alook_append_single_ne {α : Type} (l : List (String × α)) (k : String) (v : α)
    {k2 : String} (h : k2 ≠ k) : alook (l ++ [(k, v)]) k2 = alook l k2 := by
  induction l with
  | nil =>
    have hk : ¬ k = k2 := fun hc => h hc.symm
    simp only [List.nil_append, alook_cons, if_neg hk]
  | cons p ps ih =>
    simp only [List.cons_append, alook_cons]
    by_cases hq : p.1 = k2
    · simp [hq]
    · rw [if_neg hq, if_neg hq]; exact ih

theorem alook_append_single_self {α : Type} {l : List (String × α)} {k : String} (v : α)
    (h : alook l k = none) : alook (l ++ [(k, v)]) k = some v := by
  induction l with
  | nil => simp [alook]
  | cons p ps ih =>
    by_cases hp : p.1 = k
    · rw [alook_cons, if_pos hp] at h; cases h
    · rw [alook_cons, if_neg hp] at h
      simp only [List.cons_append, alook_cons, if_neg hp]
      exact ih h

theorem alook_updA {α : Type} (l : List (String × α)) (k : String) (v : α) (k2 : String) :
    alook (updA l k v) k2 = if k2 = k then some v else alook l k2 := by
  unfold updA
  by_cases h : (alook l k).isSome
  · rw [if_pos h]
    by_cases h2 : k2 = k
    · subst h2; rw [if_pos rfl]; exact alook_map_replace_self v h
    · rw [if_neg h2]; exact alook_map_replace_ne l k v h2
  · rw [if_neg h]
    by_cases h2 : k2 = k
    · subst h2
      rw [if_pos rfl]
      exact alook_append_single_self v (Option.not_isSome_iff_eq_none.mp h)
    · rw [if_neg h2]; exact alook_append_single_ne l k v h2

theorem alook_isSome_iff_mem {α : Type} (l : List (String × α)) (k : String) :
    (alook l k).isSome ↔ k ∈ keysOf l := by
  induction l with
  | nil => simp [alook, keysOf]
  | cons p ps ih =>
    by_cases hp : p.1 = k
    · simp [alook, keysOf, hp]
    · simp [alook, keysOf, hp, ih, Ne.symm hp]

theorem alook_eq_some_mem {α : Type} {l : List (String × α)} {k : String} {v : α}
    (h : alook l k = some v) : (k, v) ∈ l := by
  induction l with
  | nil => simp [alook] at h
  | cons p ps ih =>
    by_cases hp : p.1 = k
    · rw [alook_cons, if_pos hp] at h
      obtain ⟨a, b⟩ := p
      simp only at hp
      subst hp
      cases h
      exact List.mem_cons_self _ _
    · rw [alook_cons, if_neg hp] at h
      exact List.mem_cons_of_mem _ (ih h)

theorem alook_of_mem_nodup {α : Type} {l : List (String × α)} {k : String} {v : α}
    (hnd : (keysOf l).Nodup) (h : (k, v) ∈ l) : alook l k = some v := by
  induction l with
  | nil => simp at h
  | cons p ps ih =>
    rcases List.mem_cons.mp h with h | h
    · rw [← h, alook_cons, if_pos rfl]
    · have hk : k ∈ keysOf ps := List.mem_map_of_mem Prod.fst h
      have hp : p.1 ≠ k := by
        intro hc
        rw [keysOf, List.map_cons] at hnd
        exact (List.nodup_cons.mp hnd).1 (hc ▸ hk)
      rw [alook_cons, if_neg hp]
      exact ih (List.nodup_cons.mp (by simpa [keysOf] using hnd)).2 h

theorem keysOf_updA {α : Type} (l : List (String × α)) (k : String) (v : α) :
    keysOf (updA l k v) = if (alook l k).isSome then keysOf l else keysOf l ++ [k] := by
  unfold updA
  by_cases h : (alook l k).isSome
  · rw [if_pos h, if_pos h]
    unfold keysOf
    rw [List.map_map]
    congr 1
    funext p
    by_cases hp : p.1 = k
    · simp [Function.comp, hp]
    · simp [Function.comp, hp]
  · simp [if_neg h, keysOf]

theorem nodup_keys_updA {α : Type} {l : List (String × α)} (k : String) (v : α)
    (hnd : (keysOf l).Nodup) : (keysOf (updA l k v)).Nodup := by
  rw [keysOf_updA]
  by_cases h : (alook l k).isSome
  · rwa [if_pos h]
  · rw [if_neg h]
    have : k ∉ keysOf l := fun hc => h ((alook_isSome_iff_mem l k).mpr hc)
    simp [List.nodup_append, hnd, this]

theorem mem_updA {α : Type} {l : List (String × α)} {k : String} {v : α} {p : String × α}
    (h : p ∈ updA l k v) : p = (k, v) ∨ p ∈ l := by
  unfold updA at h
  by_cases hs : (alook l k).isSome
  · rw [if_pos hs] at h
    obtain ⟨q, hq, hfq⟩ := List.mem_map.mp h
    by_cases hqk : q.1 = k
    · left; rw [← hfq, if_pos hqk]
    · right; rw [← hfq, if_neg hqk]; exact hq
  · rw [if_neg hs] at h
    rcases List.mem_append.mp h with h | h
    · right; exact h
    · left; simpa using h

/-! ## Header folding: last write wins (C7) -/

theorem alook_dict_update {α : Type} (d item : List (String × α))
    (hnd : (keysOf item).Nodup) (k : String) :
    alook (dict_update d item) k = (alook item k).or (alook d k) := by
  induction item generalizing d with
  | nil => rfl
  | cons q qs ih =>
    have hnd2 : (keysOf qs).Nodup := (List.nodup_cons.mp (by simpa [keysOf] using hnd)).2
    have hq : q.1 ∉ keysOf qs := (List.nodup_cons.mp (by simpa [keysOf] using hnd)).1
    show alook (qs.foldl (fun acc p => updA acc p.1 p.2) (updA d q.1 q.2)) k = _
    rw [show qs.foldl (fun acc p => updA acc p.1 p.2) (updA d q.1 q.2) =
        dict_update (updA d q.1 q.2) qs from rfl]
    rw [ih _ hnd2, alook_updA, alook_cons]
    by_cases hqk : q.1 = k
    · have : alook qs k = none := by
        rcases h2 : alook qs k with _ | v
        · rfl
        · exact absurd ((alook_isSome_iff_mem qs k).mp (by simp [h2])) (hqk ▸ hq)
      simp [hqk, this]
    · have : ¬ k = q.1 := fun hc => hqk hc.symm
      simp [hqk, this]

theorem alook_headers_fold {α : Type} (items : List (List (String × α)))
    (d : List (String × α)) (hnd : ∀ item ∈ items, (keysOf item).Nodup) (k : String) :
    alook (items.foldl dict_update d) k =
      items.foldl (fun acc item => (alook item k).or acc) (alook d k) := by
  induction items generalizing d with
  | nil => rfl
  | cons it its ih =>
    simp only [List.foldl_cons]
    rw [ih _ (fun i hi => hnd i (List.mem_cons_of_mem _ hi)),
        alook_dict_update d it (hnd it (List.mem_cons_self _ _)) k]

theorem fold_or_eq_lastEntry {α : Type} (items : List (List (String × α))) (k : String) :
    items.foldl (fun acc item => (alook item k).or acc) none =
      (items.reverse.find? (fun item => (alook item k).isSome)).bind
        (fun item => alook item k) := by
  induction items using List.reverseRecOn with
  | nil => rfl
  | append_singleton xs x ih =>
    rw [List.foldl_append, List.reverse_append]
    simp only [List.foldl_cons, List.foldl_nil, List.reverse_singleton,
      List.singleton_append]
    rcases hx : alook x k with _ | v
    · rw [List.find?_cons_of_neg _ (by simp [hx]), Option.none_or]
      exact ih
    · rw [List.find?_cons_of_pos _ (by simp [hx])]
      simp [hx, Option.or]

/-- C7: `headers_to_dict` folds the ordered header sequence left-to-right with
last-write-wins semantics — for every key the result carries the value of the
last entry of the sequence containing that key — and the absent (`None`) and
empty sequences both fold to the empty mapping. -/
theorem headers_to_dict_last_write_wins {α : Type} (hl : Option (List (List (String × α))))
    (hnd : ∀ item ∈ hl.getD [], (keysOf item).Nodup) (k : String) :
    alook (headers_to_dict hl) k = lastHeaderEntryValue hl k ∧
    headers_to_dict (none : Option (List (List (String × α)))) = [] ∧
    headers_to_dict (some ([] : List (List (String × α)))) = [] := by
  refine ⟨?_, rfl, rfl⟩
  unfold headers_to_dict lastHeaderEntryValue
  rw [alook_headers_fold _ _ hnd k]
  exact fold_or_eq_lastEntry _ k

/-- Witness for C7 at a concrete header sequence with an overridden key. -/
theorem headers_to_dict_last_write_wins_witness :
    (∀ item ∈ (some [[("a", (1 : Nat))], [("a", 2), ("b", 3)]] :
        Option (List (List (String × Nat)))).getD [], (keysOf item).Nodup) ∧
    (alook (headers_to_dict (some [[("a", (1 : Nat))], [("a", 2), ("b", 3)]])) "a" =
        lastHeaderEntryValue (some [[("a", (1 : Nat))], [("a", 2), ("b", 3)]]) "a" ∧
      headers_to_dict (none : Option (List (List (String × Nat)))) = [] ∧
      headers_to_dict (some ([] : List (List (String × Nat)))) = []) :=
  ⟨by decide, headers_to_dict_last_write_wins _ (by decide) "a"⟩

/-! ## Flooding: duplicate suppression (C3) -/

/-- C3: an inbound flood message whose id is already in the router's seen-id set
is discarded: `handle_message` publishes nothing, delivers nothing, and returns
the router state — seen-id set included — unchanged. -/
theorem flooding_duplicate_noop (r : Router) (m : Msg)
    (h : m.message_id ∈ r.seen_ids) :
    FloodingStrategy.handle_message r m = some (r, [], []) := by
  unfold FloodingStrategy.handle_message
  rw [if_pos h]

/-- Witness for C3: a router that has already recorded `mEx`'s id. -/
theorem flooding_duplicate_noop_witness :
    (mEx.message_id ∈ rSeen.seen_ids) ∧
    FloodingStrategy.handle_message rSeen mEx = some (rSeen, [], []) :=
  ⟨by decide, flooding_duplicate_noop rSeen mEx (by decide)⟩

/-! ## Conditional forwarding of topology messages (C6) -/

/-- C6: `_forward_message_if_changed` forwards the message unchanged to every
currently-alive neighbour and resets the no-change counter exactly when
`changed` is true; when `changed` is false it forwards nothing and increments
the counter, except that on reaching the `STABLE_NOCHANGE` threshold it
triggers a shortest-path recomputation and resets the counter to zero. -/
theorem forward_message_iff_changed {α : Type} (n : NodeSt) (m : α) :
    (Node.forward_message_if_changed n m true =
      ({ n with nochange_count := 0 },
       (Node.live_neighbors n).map (fun out => (address_for_dest out n.group, m)),
       false)) ∧
    (n.stable_nochange ≤ (n.nochange_count : Int) + 1 →
      Node.forward_message_if_changed n m false =
        ({ n with nochange_count := 0 }, [], true)) ∧
    ((n.nochange_count : Int) + 1 < n.stable_nochange →
      Node.forward_message_if_changed n m false =
        ({ n with nochange_count := n.nochange_count + 1 }, [], false)) := by
  unfold Node.forward_message_if_changed
  refine ⟨by simp, fun h => ?_, fun h => ?_⟩
  · simp [h]
  · simp [not_le.mpr h]

/-- Witness for C6: both no-change branches at concrete nodes. -/
theorem forward_message_iff_changed_witness :
    Node.forward_message_if_changed nEx1 "x" false =
      ({ nEx1 with nochange_count := 0 }, [], true) ∧
    Node.forward_message_if_changed nEx2 "x" false =
      ({ nEx2 with nochange_count := 1 }, [], false) :=
  ⟨(forward_message_iff_changed nEx1 "x").2.1 (by decide),
   (forward_message_iff_changed nEx2 "x").2.2 (by decide)⟩

/-! ## Flooding: fanout and ttl handling (C4, C5) -/

theorem map_fst_filterMap_pair {α β : Type} (l : List α) (g : α → β) :
    (l.filterMap (fun a => some (a, g a))).map Prod.fst = l := by
  induction l with
  | nil => rfl
  | cons a as ih => simp [List.filterMap_cons, ih]

/-- The forward branch of `handle_message`, computed under its guards. -/
theorem handle_message_forward (r : Router) (m : Msg) (p0 : List String)
    (adj : List (String × Nat))
    (hseen : ¬ m.message_id ∈ r.seen_ids)
    (hd1 : ¬ node_of (m.mto.getD "") = r.me)
    (hd2 : ¬ m.mto.getD "" = r.listen_channel)
    (hp : FloodingStrategy.floodPath0 m = some p0)
    (hadj : alook r.graph r.me = some adj) :
    ∃ pubs, FloodingStrategy.handle_message r m =
        some ({ r with seen_ids := pySetAdd r.seen_ids m.message_id }, pubs, []) ∧
      pubs = ((adj.map Prod.fst).filter
          (fun nb => decide (¬ FloodingStrategy.lastViaOf m = some (HVal.str nb)))).filterMap
        (fun nb =>
          if m.ttl.getD 0 - 1 ≤ 0 then none
          else
            some (nb,
              { m with
                ttl := some (m.ttl.getD 0 - 1),
                headers := some (dict_to_headers (dict_update (headers_to_dict m.headers)
                  [("via", HVal.str r.me),
                   ("path", HVal.list
                     (let p1 := if p0 = [] then [node_of (m.mfrom.getD r.listen_channel)]
                                else p0
                      if p1 = [] ∨ p1.getLast? ≠ some r.me then p1 ++ [r.me] else p1)),
                   ("cost",
                     match (alook (headers_to_dict m.headers) "cost").getD (HVal.int 0),
                         alook adj nb with
                     | HVal.int c, some w => HVal.int (c + (w : Int))
                     | c0, _ => c0)])) })) := by
  refine ⟨_, ?_, rfl⟩
  simp only [FloodingStrategy.handle_message, if_neg hseen,
    if_neg (not_or.mpr ⟨hd1, hd2⟩), hp, hadj]

/-- C5 (theorem): in the forward branch, every published copy carries
`ttl = incoming ttl - 1`, and nothing at all is published when the decremented
ttl is not positive. -/
theorem flooding_ttl_decrement (r : Router) (m : Msg) (p0 : List String)
    (adj : List (String × Nat))
    (hseen : ¬ m.message_id ∈ r.seen_ids)
    (hd1 : ¬ node_of (m.mto.getD "") = r.me)
    (hd2 : ¬ m.mto.getD "" = r.listen_channel)
    (hp : FloodingStrategy.floodPath0 m = some p0)
    (hadj : alook r.graph r.me = some adj) :
    ∃ pubs, FloodingStrategy.handle_message r m =
        some ({ r with seen_ids := pySetAdd r.seen_ids m.message_id }, pubs, []) ∧
      (∀ q ∈ pubs, q.2.ttl = some (m.ttl.getD 0 - 1)) ∧
      (m.ttl.getD 0 - 1 ≤ 0 → pubs = []) := by
  obtain ⟨pubs, heq, hpubs⟩ := handle_message_forward r m p0 adj hseen hd1 hd2 hp hadj
  subst hpubs
  refine ⟨_, heq, ?_, ?_⟩
  · intro q hq
    obtain ⟨nb, hnb, hfq⟩ := List.mem_filterMap.mp hq
    by_cases ht : m.ttl.getD 0 - 1 ≤ 0
    · rw [if_pos ht] at hfq; cases hfq
    · rw [if_neg ht] at hfq
      cases hfq
      rfl
  · intro ht
    exact List.filterMap_eq_nil_iff.mpr (fun nb _ => if_pos ht)

/-- C4 (amended, theorem): in the forward branch with a forwardable ttl, the
published copies go to exactly the node's neighbours minus the folded `via`
header value; when no `via` header is present nothing is excluded. -/
theorem flooding_fanout_excludes_via (r : Router) (m : Msg) (p0 : List String)
    (adj : List (String × Nat))
    (hseen : ¬ m.message_id ∈ r.seen_ids)
    (hd1 : ¬ node_of (m.mto.getD "") = r.me)
    (hd2 : ¬ m.mto.getD "" = r.listen_channel)
    (hp : FloodingStrategy.floodPath0 m = some p0)
    (hadj : alook r.graph r.me = some adj)
    (htl : 1 < m.ttl.getD 0) :
    ∃ pubs, FloodingStrategy.handle_message r m =
        some ({ r with seen_ids := pySetAdd r.seen_ids m.message_id }, pubs, []) ∧
      pubs.map Prod.fst = (adj.map Prod.fst).filter
        (fun nb => decide (¬ FloodingStrategy.lastViaOf m = some (HVal.str nb))) := by
  obtain ⟨pubs, heq, hpubs⟩ := handle_message_forward r m p0 adj hseen hd1 hd2 hp hadj
  subst hpubs
  have ht : ¬ m.ttl.getD 0 - 1 ≤ 0 := by omega
  refine ⟨_, heq, ?_⟩
  simp only [if_neg ht]
  exact map_fst_filterMap_pair _ _

/-- Counterexample to C4 as stated: `mEx` has no `via` header and its `from`
address decodes to the neighbour `N2`, yet the code still publishes to `N2`;
the fanout the claim predicts (neighbours minus the node derived from `from`)
is empty. -/
theorem flooding_fanout_claim_counterexample :
    (FloodingStrategy.handle_message rEx mEx).map (fun t => t.2.1.map Prod.fst) =
        some ["N2"] ∧
    specFanoutC4 rEx mEx = [] ∧
    node_of (mEx.mfrom.getD rEx.listen_channel) = "N2" ∧
    FloodingStrategy.lastViaOf mEx = none := by
  exact ⟨by decide, by decide, by decide, by decide⟩

/-- Witness for C4's amended theorem: a message carrying `via = N2` at a router
whose only neighbour is `N2` produces an empty fanout. -/
theorem flooding_fanout_excludes_via_witness :
    (¬ mVia.message_id ∈ rEx.seen_ids) ∧
    ∃ pubs, FloodingStrategy.handle_message rEx mVia =
        some ({ rEx with seen_ids := pySetAdd rEx.seen_ids mVia.message_id }, pubs, []) ∧
      pubs.map Prod.fst = (([("N2", 1)] : List (String × Nat)).map Prod.fst).filter
        (fun nb => decide (¬ FloodingStrategy.lastViaOf mVia = some (HVal.str nb))) :=
  ⟨by decide,
   flooding_fanout_excludes_via rEx mVia [] [("N2", 1)] (by decide) (by decide)
     (by decide) (by decide) (by decide) (by decide)⟩

/-- Witness for C5: the fresh message `mEx` at `rEx`. -/
theorem flooding_ttl_decrement_witness :
    (¬ mEx.message_id ∈ rEx.seen_ids) ∧
    ∃ pubs, FloodingStrategy.handle_message rEx mEx =
        some ({ rEx with seen_ids := pySetAdd rEx.seen_ids mEx.message_id }, pubs, []) ∧
      (∀ q ∈ pubs, q.2.ttl = some (mEx.ttl.getD 0 - 1)) ∧
      (mEx.ttl.getD 0 - 1 ≤ 0 → pubs = []) :=
  ⟨by decide,
   flooding_ttl_decrement rEx mEx [] [("N2", 1)] (by decide) (by decide)
     (by decide) (by decide) (by decide)⟩

/-! ## Decimal rendering: parse ∘ render = id (towards C9) -/

theorem digitChar_isDigit (d : Nat) : (digitChar d).isDigit = true := by
  unfold digitChar
  split_ifs <;> decide

theorem charVal_digitChar {d : Nat} (h : d < 10) : charVal (digitChar d) = d := by
  unfold digitChar
  split_ifs with h0 h1 h2 h3 h4 h5 h6 h7 h8
  · subst h0; decide
  · subst h1; decide
  · subst h2; decide
  · subst h3; decide
  · subst h4; decide
  · subst h5; decide
  · subst h6; decide
  · subst h7; decide
  · subst h8; decide
  · have h9 : d = 9 := by omega
    subst h9; decide

theorem natReprGo_congr : ∀ (f1 : Nat) (n f2 : Nat), n < f1 → n < f2 →
    natReprGo f1 n = natReprGo f2 n := by
  intro f1
  induction f1 with
  | zero => intro n f2 h1 _; omega
  | succ g ih =>
    intro n f2 h1 h2
    cases f2 with
    | zero => omega
    | succ h =>
      by_cases hn : n < 10
      · simp [natReprGo, hn]
      · have hd : n / 10 < n := Nat.div_lt_self (by omega) (by omega)
        simp only [natReprGo, if_neg hn]
        rw [ih (n / 10) g (by omega) (by omega), ih (n / 10) h (by omega) (by omega)]

theorem natReprGo_eq_chars {fuel n : Nat} (h : n < fuel) :
    natReprGo fuel n = natReprChars n :=
  natReprGo_congr fuel n (n + 1) h (Nat.lt_succ_self n)

theorem natReprChars_split {n : Nat} (h : ¬ n < 10) :
    natReprChars n = natReprChars (n / 10) ++ [digitChar (n % 10)] := by
  have hd : n / 10 < n := Nat.div_lt_self (by omega) (by omega)
  show natReprGo (n + 1) n = _
  simp only [natReprGo, if_neg h]
  rw [natReprGo_eq_chars (by omega)]

theorem natReprChars_small {n : Nat} (h : n < 10) : natReprChars n = [digitChar n] := by
  show natReprGo (n + 1) n = _
  simp [natReprGo, h]

theorem natReprChars_digits (n : Nat) : ∀ c ∈ natReprChars n, c.isDigit = true := by
  induction n using Nat.strong_induction_on with
  | _ n ih =>
    by_cases hn : n < 10
    · rw [natReprChars_small hn]
      intro c hc
      rw [List.mem_singleton.mp hc]
      exact digitChar_isDigit n
    · rw [natReprChars_split hn]
      intro c hc
      rcases List.mem_append.mp hc with hc | hc
      · exact ih (n / 10) (Nat.div_lt_self (by omega) (by omega)) c hc
      · rw [List.mem_singleton.mp hc]
        exact digitChar_isDigit (n % 10)

theorem natReprChars_ne_nil (n : Nat) : natReprChars n ≠ [] := by
  by_cases hn : n < 10
  · rw [natReprChars_small hn]; simp
  · rw [natReprChars_split hn]; simp

theorem natOfDigits_append_single (xs : List Char) (c : Char) :
    natOfDigits (xs ++ [c]) = 10 * natOfDigits xs + charVal c := by
  unfold natOfDigits
  rw [List.foldl_append]
  rfl

theorem natOfDigits_natReprChars (n : Nat) : natOfDigits (natReprChars n) = n := by
  induction n using Nat.strong_induction_on with
  | _ n ih =>
    by_cases hn : n < 10
    · rw [natReprChars_small hn]
      show 10 * 0 + charVal (digitChar n) = n
      rw [charVal_digitChar hn]
      omega
    · rw [natReprChars_split hn, natOfDigits_append_single,
        ih (n / 10) (Nat.div_lt_self (by omega) (by omega)),
        charVal_digitChar (Nat.mod_lt n (by omega))]
      omega

theorem pyIntNat_digits {l : List Char} (hne : l ≠ [])
    (hd : ∀ c ∈ l, c.isDigit = true) : pyIntNat l = some (natOfDigits l) := by
  cases l with
  | nil => exact absurd rfl hne
  | cons c cs =>
    show (if (c :: cs).all Char.isDigit then some (natOfDigits (c :: cs)) else none) = _
    rw [if_pos (List.all_eq_true.mpr hd)]

theorem pyInt_natReprChars (k : Nat) : pyInt (natReprChars k) = some (k : Int) := by
  rcases hl : natReprChars k with _ | ⟨c, cs⟩
  · exact absurd hl (natReprChars_ne_nil k)
  · have hc : c.isDigit = true := natReprChars_digits k c (by rw [hl]; simp)
    have hminus : ¬ c = '-' := by intro h; rw [h] at hc; simp [Char.isDigit] at hc
    have hplus : ¬ c = '+' := by intro h; rw [h] at hc; simp [Char.isDigit] at hc
    show (if c = '-' then _ else if c = '+' then _
      else (pyIntNat (c :: cs)).map (fun n => (n : Int))) = _
    rw [if_neg hminus, if_neg hplus, ← hl,
      pyIntNat_digits (natReprChars_ne_nil k) (natReprChars_digits k),
      natOfDigits_natReprChars]
    rfl

theorem intReprChars_natCast (k : Nat) : intReprChars (k : Int) = natReprChars k := by
  unfold intReprChars
  rw [if_neg (by omega)]
  norm_num

/-! ## `split(".")[-1]` and `replace("nodo", "")` lemmas (towards C9) -/

theorem splitOnDot_ne_nil (l : List Char) : splitOnDot l ≠ [] := by
  induction l with
  | nil => simp [splitOnDot]
  | cons c cs ih =>
    by_cases hc : c = '.'
    · simp [splitOnDot, hc]
    · rcases h : splitOnDot cs with _ | ⟨s, rest⟩
      · exact absurd h ih
      · simp [splitOnDot, hc, h]

theorem splitOnDot_no_dot {l : List Char} (h : '.' ∉ l) : splitOnDot l = [l] := by
  induction l with
  | nil => rfl
  | cons c cs ih =>
    have hc : ¬ c = '.' := fun hc => h (hc ▸ List.mem_cons_self c cs)
    have ih2 := ih (fun hm => h (List.mem_cons_of_mem c hm))
    simp [splitOnDot, hc, ih2]

theorem splitOnDot_two_le {l : List Char} (h : '.' ∈ l) : 2 ≤ (splitOnDot l).length := by
  induction l with
  | nil => simp at h
  | cons c cs ih =>
    by_cases hc : c = '.'
    · have h1 : splitOnDot cs ≠ [] := splitOnDot_ne_nil cs
      have h2 : 0 < (splitOnDot cs).length := List.length_pos.mpr h1
      simp [splitOnDot, hc]
      omega
    · have hm : '.' ∈ cs := by
        rcases List.mem_cons.mp h with h | h
        · exact absurd h.symm hc
        · exact h
      rcases hsp : splitOnDot cs with _ | ⟨s, rest⟩
      · exact absurd hsp (splitOnDot_ne_nil cs)
      · have := ih hm
        rw [hsp] at this
        simp only [splitOnDot, if_neg hc, hsp, List.length_cons] at this ⊢
        omega

theorem getLastD_of_ne_nil {α : Type} {l : List α} (h : l ≠ []) (d1 d2 : α) :
    l.getLastD d1 = l.getLastD d2 := by
  rw [List.getLastD_eq_getLast?, List.getLastD_eq_getLast?]
  rcases hl : l.getLast? with _ | x
  · exact absurd (List.getLast?_eq_none_iff.mp hl) h
  · rfl

theorem lastSeg_append_dot {ys : List Char} (h : '.' ∉ ys) (xs : List Char) :
    lastSeg (xs ++ '.' :: ys) = ys := by
  induction xs with
  | nil =>
    show ((splitOnDot ('.' :: ys)).getLastD []) = ys
    simp only [splitOnDot, if_pos rfl, splitOnDot_no_dot h]
    rfl
  | cons c xs ih =>
    by_cases hc : c = '.'
    · show ((splitOnDot (c :: (xs ++ '.' :: ys))).getLastD []) = ys
      simp only [splitOnDot, if_pos hc]
      rcases hsp : splitOnDot (xs ++ '.' :: ys) with _ | ⟨s, rest⟩
      · exact absurd hsp (splitOnDot_ne_nil _)
      · show (s :: rest).getLastD [] = ys
        have := ih
        unfold lastSeg at this
        rw [hsp] at this
        exact this
    · show ((splitOnDot (c :: (xs ++ '.' :: ys))).getLastD []) = ys
      rcases hsp : splitOnDot (xs ++ '.' :: ys) with _ | ⟨s, rest⟩
      · exact absurd hsp (splitOnDot_ne_nil _)
      · simp only [splitOnDot, if_neg hc, hsp]
        have hrest : rest ≠ [] := by
          intro hr
          have h2 := splitOnDot_two_le
            (l := xs ++ '.' :: ys) (by simp)
          rw [hsp, hr] at h2
          simp at h2
        have := ih
        unfold lastSeg at this
        rw [hsp] at this
        calc ((c :: s) :: rest).getLastD []
            = rest.getLastD (c :: s) := by rw [List.getLastD_cons]
          _ = rest.getLastD s := getLastD_of_ne_nil hrest _ _
          _ = (s :: rest).getLastD [] := by rw [List.getLastD_cons]
          _ = ys := this

theorem replaceNodo_cons_nodo (ds : List Char) :
    replaceNodo ('n' :: 'o' :: 'd' :: 'o' :: ds) = replaceNodo ds := rfl

theorem replaceNodo_digits {l : List Char} (hd : ∀ c ∈ l, c.isDigit = true) :
    replaceNodo l = l := by
  induction l with
  | nil => rfl
  | cons c cs ih =>
    have hc : c.isDigit = true := hd c (List.mem_cons_self c cs)
    have hcn : c ≠ 'n' := by intro h; rw [h] at hc; simp [Char.isDigit] at hc
    have ih2 := ih (fun x hx => hd x (List.mem_cons_of_mem c hx))
    rw [replaceNodo.eq_def]
    split
    · rename_i rest heq
      injection heq with h1 _
      exact absurd h1 hcn
    · rename_i c2 cs2 heq
      injection heq with h1 h2
      subst h1
      subst h2
      rw [ih2]
    · rename_i heq
      cases heq

/-! ## The address codec round-trip (C9) -/

theorem address_of_mkNodeId (k : Nat) (grp : String) :
    address_of (mkNodeId k) grp =
      some (String.mk ("sec30.".data ++ grp.data ++ ".nodo".data ++ natReprChars k)) := by
  unfold address_of
  rw [show (mkNodeId k).data.drop 1 = natReprChars k from rfl, pyInt_natReprChars k]
  show some (String.mk ("sec30.".data ++ grp.data ++ ".nodo".data ++
    intReprChars ((k : Nat) : Int))) = _
  rw [intReprChars_natCast]

theorem dot_not_mem_nodo_digits (k : Nat) :
    '.' ∉ ('n' :: 'o' :: 'd' :: 'o' :: natReprChars k) := by
  intro hm
  rcases List.mem_cons.mp hm with h | hm
  · cases h
  rcases List.mem_cons.mp hm with h | hm
  · cases h
  rcases List.mem_cons.mp hm with h | hm
  · cases h
  rcases List.mem_cons.mp hm with h | hm
  · cases h
  have := natReprChars_digits k '.' hm
  simp [Char.isDigit] at this

theorem node_of_canonical (k : Nat) (grp : String) :
    node_of (String.mk ("sec30.".data ++ grp.data ++ ".nodo".data ++ natReprChars k)) =
      mkNodeId k := by
  unfold node_of
  have hassoc : (String.mk ("sec30.".data ++ grp.data ++ ".nodo".data ++
      natReprChars k)).data =
      ("sec30.".data ++ grp.data) ++ '.' :: ('n' :: 'o' :: 'd' :: 'o' :: natReprChars k) := by
    show ("sec30.".data ++ grp.data ++ ".nodo".data ++ natReprChars k) = _
    rw [List.append_assoc ("sec30.".data ++ grp.data) (".nodo".data) (natReprChars k)]
    rfl
  rw [hassoc, lastSeg_append_dot (dot_not_mem_nodo_digits k), replaceNodo_cons_nodo,
    replaceNodo_digits (natReprChars_digits k), pyInt_natReprChars]
  show String.mk ('N' :: intReprChars ((k : Nat) : Int)) = mkNodeId k
  rw [intReprChars_natCast]
  rfl

/-- C9: the address codec round-trips on every canonical node identifier
`N<k>` and every group: `node_of (address_of n group) = n`, and (consequently)
`address_of` is injective over the canonical identifier space for a fixed
group. -/
theorem address_codec_roundtrip (k : Nat) (grp : String) :
    (∃ a, address_of (mkNodeId k) grp = some a ∧ node_of a = mkNodeId k) ∧
    (∀ k2 a, address_of (mkNodeId k) grp = some a →
      address_of (mkNodeId k2) grp = some a → k = k2) := by
  constructor
  · exact ⟨_, address_of_mkNodeId k grp, node_of_canonical k grp⟩
  · intro k2 a h1 h2
    rw [address_of_mkNodeId k grp] at h1
    rw [address_of_mkNodeId k2 grp] at h2
    have heq := (Option.some.inj h1).trans (Option.some.inj h2).symm
    have hdata : "sec30.".data ++ grp.data ++ ".nodo".data ++ natReprChars k =
        "sec30.".data ++ grp.data ++ ".nodo".data ++ natReprChars k2 := by
      have := congrArg String.data heq
      simpa using this
    have hr : natReprChars k = natReprChars k2 := by
      rw [List.append_assoc, List.append_assoc, List.append_assoc, List.append_assoc]
        at hdata
      have h3 := List.append_cancel_left hdata
      have h4 := List.append_cancel_left h3
      exact List.append_cancel_left h4
    have := congrArg natOfDigits hr
    rwa [natOfDigits_natReprChars, natOfDigits_natReprChars] at this

/-- Witness for C9 at `k = 3`, `group = "grupo1"`. -/
theorem address_codec_roundtrip_witness :
    (∃ a, address_of (mkNodeId 3) "grupo1" = some a ∧ node_of a = mkNodeId 3) ∧
    (3 : Nat) = 3 :=
  ⟨(address_codec_roundtrip 3 "grupo1").1,
   (address_codec_roundtrip 3 "grupo1").2 3 "sec30.grupo1.nodo3" (by decide) (by decide)⟩

/-! ## The edge scanner: structural lemmas (towards C8) -/

theorem takeDigits_cons_digit {c : Char} (h : c.isDigit = true) (cs : List Char) :
    takeDigits (c :: cs) = (c :: (takeDigits cs).1, (takeDigits cs).2) := by
  rcases htd : takeDigits cs with ⟨d, r⟩
  show (if c.isDigit = true then
    match takeDigits cs with
    | (d, r) => (c :: d, r)
    else ([], c :: cs)) = _
  rw [htd, if_pos h]

theorem takeDigits_cons_nondigit {c : Char} (h : ¬ c.isDigit = true) (cs : List Char) :
    takeDigits (c :: cs) = ([], c :: cs) := by
  show (if c.isDigit = true then
    match takeDigits cs with
    | (d, r) => (c :: d, r)
    else ([], c :: cs)) = _
  rw [if_neg h]

theorem takeDigits_decomp (l : List Char) : (takeDigits l).1 ++ (takeDigits l).2 = l := by
  induction l with
  | nil => rfl
  | cons c cs ih =>
    by_cases h : c.isDigit = true
    · rw [takeDigits_cons_digit h, List.cons_append, ih]
    · rw [takeDigits_cons_nondigit h]
      rfl

theorem takeDigits_append_nondigit {c0 : Char} (h : ¬ c0.isDigit = true)
    (zs ws : List Char) :
    takeDigits (zs ++ c0 :: ws) = ((takeDigits zs).1, (takeDigits zs).2 ++ c0 :: ws) := by
  induction zs with
  | nil =>
    rw [List.nil_append, takeDigits_cons_nondigit h]
    rfl
  | cons c zs ih =>
    by_cases hc : c.isDigit = true
    · rw [List.cons_append, takeDigits_cons_digit hc, takeDigits_cons_digit hc, ih]
    · rw [List.cons_append, takeDigits_cons_nondigit hc, takeDigits_cons_nondigit hc]
      rfl

theorem takeDigits_snd_length (l : List Char) : (takeDigits l).2.length ≤ l.length := by
  conv_rhs => rw [← takeDigits_decomp l]
  rw [List.length_append]
  omega

theorem expectChar_space {c : Char} (hc : ¬ ' ' = c) (zs ws : List Char) :
    expectChar c (zs ++ ' ' :: ws) = (expectChar c zs).map (fun r => r ++ ' ' :: ws) := by
  cases zs with
  | nil =>
    show (if ' ' = c then some ws else none) = Option.map _ none
    rw [if_neg hc]
    rfl
  | cons x xs =>
    show (if x = c then some (xs ++ ' ' :: ws) else none) =
      Option.map _ (if x = c then some xs else none)
    by_cases hx : x = c
    · rw [if_pos hx, if_pos hx]; rfl
    · rw [if_neg hx, if_neg hx]; rfl

theorem expectDigits_space (zs ws : List Char) :
    expectDigits (zs ++ ' ' :: ws) =
      (expectDigits zs).map (fun p => (p.1, p.2 ++ ' ' :: ws)) := by
  unfold expectDigits
  rw [takeDigits_append_nondigit (by decide) zs ws]
  by_cases h : (takeDigits zs).1 = []
  · rw [if_pos h, if_pos h]; rfl
  · rw [if_neg h, if_neg h]; rfl

theorem expectChar_some_length {c : Char} {l r : List Char} (h : expectChar c l = some r) :
    r.length < l.length := by
  cases l with
  | nil => cases h
  | cons x xs =>
    have h2 : (if x = c then some xs else none) = some r := h
    by_cases hx : x = c
    · rw [if_pos hx] at h2
      cases h2
      simp
    · rw [if_neg hx] at h2
      cases h2

theorem expectDigits_some {l : List Char} {p : List Char × List Char}
    (h : expectDigits l = some p) : p.2.length ≤ l.length := by
  unfold expectDigits at h
  by_cases hd : (takeDigits l).1 = []
  · rw [if_pos hd] at h; cases h
  · rw [if_neg hd] at h
    cases h
    exact takeDigits_snd_length l

theorem matchEdgeAt_space (zs ws : List Char) :
    matchEdgeAt (zs ++ ' ' :: ws) =
      (matchEdgeAt zs).map (fun er => (er.1, er.2 ++ ' ' :: ws)) := by
  unfold matchEdgeAt
  rw [expectChar_space (by decide) zs ws]
  rcases h1 : expectChar 'N' zs with _ | r1 <;>
    simp only [h1, Option.map_none', Option.map_some', Option.none_bind, Option.some_bind]
  rw [expectDigits_space r1 ws]
  rcases h2 : expectDigits r1 with _ | p1 <;>
    simp only [h2, Option.map_none', Option.map_some', Option.none_bind, Option.some_bind]
  rw [expectChar_space (by decide) p1.2 ws]
  rcases h3 : expectChar '-' p1.2 with _ | r3 <;>
    simp only [h3, Option.map_none', Option.map_some', Option.none_bind, Option.some_bind]
  rw [expectChar_space (by decide) r3 ws]
  rcases h4 : expectChar 'N' r3 with _ | r4 <;>
    simp only [h4, Option.map_none', Option.map_some', Option.none_bind, Option.some_bind]
  rw [expectDigits_space r4 ws]
  rcases h5 : expectDigits r4 with _ | p2 <;>
    simp only [h5, Option.map_none', Option.map_some', Option.none_bind, Option.some_bind]
  rw [expectChar_space (by decide) p2.2 ws]
  rcases h6 : expectChar ':' p2.2 with _ | r6 <;>
    simp only [h6, Option.map_none', Option.map_some', Option.none_bind, Option.some_bind]
  rw [expectDigits_space r6 ws]
  rcases h7 : expectDigits r6 with _ | p3 <;>
    simp only [h7, Option.map_none', Option.map_some', Option.none_bind, Option.some_bind]

theorem matchEdgeAt_some_length {l : List Char}
    {e : List Char × List Char × List Char} {rest : List Char}
    (h : matchEdgeAt l = some (e, rest)) : rest.length < l.length := by
  unfold matchEdgeAt at h
  obtain ⟨r1, h1, h⟩ := Option.bind_eq_some.mp h
  obtain ⟨p1, h2, h⟩ := Option.bind_eq_some.mp h
  obtain ⟨r3, h3, h⟩ := Option.bind_eq_some.mp h
  obtain ⟨r4, h4, h⟩ := Option.bind_eq_some.mp h
  obtain ⟨p2, h5, h⟩ := Option.bind_eq_some.mp h
  obtain ⟨r6, h6, h⟩ := Option.bind_eq_some.mp h
  obtain ⟨p3, h7, hmap⟩ := Option.map_eq_some'.mp h
  have hrest : rest = p3.2 := (congrArg Prod.snd hmap).symm
  subst hrest
  have l1 := expectChar_some_length h1
  have l2 := expectDigits_some h2
  have l3 := expectChar_some_length h3
  have l4 := expectChar_some_length h4
  have l5 := expectDigits_some h5
  have l6 := expectChar_some_length h6
  have l7 := expectDigits_some h7
  omega

/-! ## The scanner: fuel irrelevance and splitting at spaces (towards C8) -/

theorem findEdgesGo_congr : ∀ (f1 : Nat) (l : List Char) (f2 : Nat),
    l.length ≤ f1 → l.length ≤ f2 → findEdgesGo f1 l = findEdgesGo f2 l := by
  intro f1
  induction f1 with
  | zero =>
    intro l f2 h1 _
    have hl : l = [] := List.eq_nil_of_length_eq_zero (by omega)
    subst hl
    cases f2 <;> rfl
  | succ g ih =>
    intro l f2 h1 h2
    cases l with
    | nil => cases f2 <;> rfl
    | cons c cs =>
      cases f2 with
      | zero => simp at h2
      | succ g2 =>
        show (match matchEdgeAt (c :: cs) with
          | some (e, rest) => e :: findEdgesGo g rest
          | none => findEdgesGo g cs) = (match matchEdgeAt (c :: cs) with
          | some (e, rest) => e :: findEdgesGo g2 rest
          | none => findEdgesGo g2 cs)
        rcases hm : matchEdgeAt (c :: cs) with _ | ⟨e, rest⟩ <;> simp only [hm]
        · have hcs : cs.length ≤ g := by simp at h1; omega
          have hcs2 : cs.length ≤ g2 := by simp at h2; omega
          exact ih cs g2 hcs hcs2
        · have hlt := matchEdgeAt_some_length hm
          have hr : rest.length ≤ g := by simp at h1 hlt; omega
          have hr2 : rest.length ≤ g2 := by simp at h2 hlt; omega
          rw [ih rest g2 hr hr2]

theorem findEdgesGo_split : ∀ (f : Nat) (xs ys : List Char),
    xs.length + ys.length + 1 ≤ f →
    findEdgesGo f (xs ++ ' ' :: ys) = findEdges xs ++ findEdges ys := by
  intro f
  induction f with
  | zero => intro xs ys h; omega
  | succ g ih =>
    intro xs ys h
    cases xs with
    | nil =>
      show (match matchEdgeAt (' ' :: ys) with
        | some (e, rest) => e :: findEdgesGo g rest
        | none => findEdgesGo g ys) = findEdges [] ++ findEdges ys
      rw [show matchEdgeAt (' ' :: ys) = none from rfl]
      show findEdgesGo g ys = findEdges [] ++ findEdges ys
      have : findEdgesGo g ys = findEdges ys :=
        findEdgesGo_congr g ys ys.length (by simp at h; omega) le_rfl
      rw [this]
      rfl
    | cons c cs =>
      show (match matchEdgeAt ((c :: cs) ++ ' ' :: ys) with
        | some (e, rest) => e :: findEdgesGo g rest
        | none => findEdgesGo g (cs ++ ' ' :: ys)) = findEdges (c :: cs) ++ findEdges ys
      rw [matchEdgeAt_space (c :: cs) ys]
      rcases hm : matchEdgeAt (c :: cs) with _ | ⟨e, rest⟩ <;>
        simp only [hm, Option.map_none', Option.map_some']
      · rw [ih cs ys (by simp at h ⊢; omega)]
        have hfe : findEdges (c :: cs) = findEdgesGo cs.length cs := by
          show (match matchEdgeAt (c :: cs) with
            | some (e, rest) => e :: findEdgesGo cs.length rest
            | none => findEdgesGo cs.length cs) = _
          simp only [hm]
        rw [hfe]
        rfl
      · have hlt := matchEdgeAt_some_length hm
        rw [ih rest ys (by simp at h hlt ⊢; omega)]
        have hfe : findEdges (c :: cs) = e :: findEdgesGo cs.length rest := by
          show (match matchEdgeAt (c :: cs) with
            | some (e, rest) => e :: findEdgesGo cs.length rest
            | none => findEdgesGo cs.length cs) = _
          simp only [hm]
        rw [hfe,
          findEdgesGo_congr cs.length rest rest.length (by simp at hlt ⊢; omega) le_rfl]
        rfl

theorem findEdges_append_space (xs ys : List Char) :
    findEdges (xs ++ ' ' :: ys) = findEdges xs ++ findEdges ys := by
  show findEdgesGo (xs ++ ' ' :: ys).length _ = _
  exact findEdgesGo_split _ xs ys (by simp; omega)

/-! ## Graph building: symmetry (towards C8) -/

theorem lookupW_updG (g : Graph) (a b : String) (w : Nat) (u v : String) :
    lookupW (updG g a b w) u v =
      if u = a ∧ v = b then some w else lookupW g u v := by
  by_cases hu : u = a
  · subst hu
    show (alook (updA g u (updA ((alook g u).getD []) b w)) u).bind (fun adj => alook adj v) = _
    rw [alook_updA, if_pos rfl]
    show alook (updA ((alook g u).getD []) b w) v = _
    rw [alook_updA]
    by_cases hv : v = b
    · rw [if_pos hv, if_pos ⟨rfl, hv⟩]
    · rw [if_neg hv, if_neg (fun hc => hv hc.2)]
      rcases hg : alook g u with _ | adj
      · simp [lookupW, hg, alook]
      · simp [lookupW, hg]
  · show (alook (updA g a (updA ((alook g a).getD []) b w)) u).bind (fun adj => alook adj v) = _
    rw [alook_updA, if_neg hu, if_neg (fun hc => hu hc.1)]
    rfl

theorem lookupW_addEdge (g : Graph) (e : List Char × List Char × List Char)
    (u v : String) :
    lookupW (addEdge g e) u v =
      (if u = String.mk ('N' :: e.2.1) ∧ v = String.mk ('N' :: e.1) then
        some (natOfDigits e.2.2)
      else if u = String.mk ('N' :: e.1) ∧ v = String.mk ('N' :: e.2.1) then
        some (natOfDigits e.2.2)
      else lookupW g u v) := by
  show lookupW (updG (updG g (String.mk ('N' :: e.1)) (String.mk ('N' :: e.2.1))
    (natOfDigits e.2.2)) (String.mk ('N' :: e.2.1)) (String.mk ('N' :: e.1))
    (natOfDigits e.2.2)) u v = _
  rw [lookupW_updG, lookupW_updG]

theorem symmetric_addEdge {g : Graph}
    (hs : ∀ u v, lookupW g u v = lookupW g v u)
    (e : List Char × List Char × List Char) :
    ∀ u v, lookupW (addEdge g e) u v = lookupW (addEdge g e) v u := by
  intro u v
  rw [lookupW_addEdge, lookupW_addEdge]
  split_ifs <;> first
  | rfl
  | exact hs u v
  | tauto

theorem symmetric_foldl_addEdge (es : List (List Char × List Char × List Char)) :
    ∀ (g : Graph), (∀ u v, lookupW g u v = lookupW g v u) →
    ∀ u v, lookupW (es.foldl addEdge g) u v = lookupW (es.foldl addEdge g) v u := by
  induction es with
  | nil => intro g hg; exact hg
  | cons e es ih =>
    intro g hg
    exact ih (addEdge g e) (symmetric_addEdge hg e)

theorem parse_topology_symmetric (t : String) :
    ∀ u v, lookupW (parse_topology t) u v = lookupW (parse_topology t) v u := by
  unfold parse_topology
  exact symmetric_foldl_addEdge _ [] (fun u v => rfl)

/-! ## `parse_topology`: the claim C8 -/

theorem replaceNewlines_append (a b : List Char) :
    replaceNewlines (a ++ b) = replaceNewlines a ++ replaceNewlines b :=
  List.map_append _ a b

theorem replaceNewlines_cons_newline (b : List Char) :
    replaceNewlines ('\n' :: b) = ' ' :: replaceNewlines b := rfl

/-- C8: for every input text, the graph produced by `parse_topology` is
symmetric (`u → v` with weight `w` iff `v → u` with weight `w`), and a line in
which the edge pattern `N<i>-N<j>:<weight>` finds no match contributes nothing
to the graph: deleting it leaves the parse of the surrounding text unchanged. -/
theorem parse_topology_symmetric_ignores_unmatched (t pre line post : String)
    (hno : findEdges (replaceNewlines line.data) = []) :
    (∀ u v, lookupW (parse_topology t) u v = lookupW (parse_topology t) v u) ∧
    parse_topology (pre ++ "\n" ++ line ++ "\n" ++ post) =
      parse_topology (pre ++ "\n" ++ post) := by
  refine ⟨parse_topology_symmetric t, ?_⟩
  unfold parse_topology
  congr 1
  have hdata1 : (pre ++ "\n" ++ line ++ "\n" ++ post).data
      = pre.data ++ '\n' :: (line.data ++ '\n' :: post.data) := by
    simp [String.data_append, List.append_assoc]
  have hdata2 : (pre ++ "\n" ++ post).data = pre.data ++ '\n' :: post.data := by
    simp [String.data_append, List.append_assoc]
  rw [hdata1, hdata2, replaceNewlines_append, replaceNewlines_cons_newline,
    replaceNewlines_append, replaceNewlines_cons_newline,
    replaceNewlines_append, replaceNewlines_cons_newline,
    findEdges_append_space, findEdges_append_space, findEdges_append_space, hno]
  simp

/-- Witness for C8: a concrete garbage line between two edge lines. -/
theorem parse_topology_c8_witness :
    findEdges (replaceNewlines ("garbage line").data) = [] ∧
    ((∀ u v, lookupW (parse_topology "N1-N2:3") u v =
        lookupW (parse_topology "N1-N2:3") v u) ∧
     parse_topology ("N1-N2:3" ++ "\n" ++ "garbage line" ++ "\n" ++ "N2-N3:4") =
       parse_topology ("N1-N2:3" ++ "\n" ++ "N2-N3:4")) :=
  ⟨by decide,
   parse_topology_symmetric_ignores_unmatched "N1-N2:3" "N1-N2:3" "garbage line"
     "N2-N3:4" (by decide)⟩

/-! ## The heap model: `popMin` returns a minimum entry (towards C1) -/

theorem findMin_none_iff (l : List (Nat × String)) : findMin l = none ↔ l = [] := by
  cases l with
  | nil => simp [findMin]
  | cons x xs =>
    simp only [findMin]
    rcases findMin xs with _ | m <;> simp

theorem findMin_spec (l : List (Nat × String)) (m : Nat × String)
    (h : findMin l = some m) : m ∈ l ∧ ∀ x ∈ l, m.1 ≤ x.1 := by
  induction l generalizing m with
  | nil => cases h
  | cons x xs ih =>
    rcases hxs : findMin xs with _ | m2
    · have hnil : xs = [] := (findMin_none_iff xs).mp hxs
      subst hnil
      simp only [findMin] at h
      injection h with h2
      subst h2
      refine ⟨List.mem_cons_self _ _, ?_⟩
      intro y hy
      simp at hy
      subst hy
      exact le_rfl
    · obtain ⟨hm2, hle2⟩ := ih m2 hxs
      simp only [findMin, hxs] at h
      by_cases hp : pairLeB x m2 = true
      · rw [if_pos hp] at h
        injection h with h2
        subst h2
        have hx1 : x.1 ≤ m2.1 := by
          unfold pairLeB at hp
          by_cases h1 : x.1 < m2.1
          · omega
          · rw [if_neg h1] at hp
            by_cases h2 : x.1 = m2.1
            · omega
            · rw [if_neg h2] at hp; cases hp
        refine ⟨List.mem_cons_self _ _, ?_⟩
        intro y hy
        rcases List.mem_cons.mp hy with hy | hy
        · subst hy; exact le_rfl
        · exact le_trans hx1 (hle2 y hy)
      · rw [if_neg hp] at h
        injection h with h2
        subst h2
        have hx1 : m2.1 ≤ x.1 := by
          by_cases h1 : x.1 < m2.1
          · exfalso
            apply hp
            unfold pairLeB
            rw [if_pos h1]
          · omega
        refine ⟨List.mem_cons_of_mem _ hm2, ?_⟩
        intro y hy
        rcases List.mem_cons.mp hy with hy | hy
        · subst hy; exact hx1
        · exact hle2 y hy

theorem popMin_none_iff (l : List (Nat × String)) : popMin l = none ↔ l = [] := by
  unfold popMin
  rcases h : findMin l with _ | m
  · simp [(findMin_none_iff l).mp h]
  · constructor
    · intro hc; cases hc
    · intro hl
      subst hl
      cases h

theorem popMin_spec {l : List (Nat × String)} {m : Nat × String} {rest : List (Nat × String)}
    (h : popMin l = some (m, rest)) :
    m ∈ l ∧ rest = l.erase m ∧ ∀ x ∈ l, m.1 ≤ x.1 := by
  unfold popMin at h
  rcases hf : findMin l with _ | m2 <;> rw [hf] at h
  · cases h
  · injection h with h2
    injection h2 with ha hb
    subst ha
    subst hb
    obtain ⟨hm, hle⟩ := findMin_spec l m2 hf
    exact ⟨hm, rfl, hle⟩

/-! ## Paths and `ℕ∞` helpers -/

theorem PathCost.snoc {g : Graph} {s u : String} {d : Nat} (hp : PathCost g s u d)
    {v : String} {w : Nat} (hw : lookupW g u v = some w) : PathCost g s v (d + w) := by
  induction hp with
  | refl x => simpa using PathCost.step hw (PathCost.refl v)
  | step hw2 _ ih =>
    have := PathCost.step hw2 (ih hw)
    convert this using 1
    omega

theorem enat_exists_of_ne_top {a : ℕ∞} (h : a ≠ ⊤) : ∃ n : Nat, a = (n : ℕ∞) := by
  rcases WithTop.ne_top_iff_exists.mp h with ⟨n, hn⟩
  exact ⟨n, hn.symm⟩

theorem enat_coe_ne_top (n : Nat) : (n : ℕ∞) ≠ ⊤ := by
  exact WithTop.coe_ne_top

/-! ## Graph well-formedness consequences -/

/-- Closure of weighted lookups: every edge target is a key. -/
def ClosedW (g : Graph) : Prop :=
  ∀ u v w, lookupW g u v = some w → (alook g v).isSome

/-- Strictly positive weights. -/
def PosW (g : Graph) : Prop := ∀ u v w, lookupW g u v = some w → 1 ≤ w

/-- Duplicate-free adjacency keys. -/
def AdjNodup (g : Graph) : Prop :=
  ∀ u adj, alook g u = some adj → (keysOf adj).Nodup

theorem lookupW_eq_some {g : Graph} {u v : String} {w : Nat}
    (h : lookupW g u v = some w) :
    ∃ adj, alook g u = some adj ∧ alook adj v = some w := by
  unfold lookupW at h
  rcases hu : alook g u with _ | adj <;> rw [hu] at h
  · cases h
  · exact ⟨adj, rfl, h⟩

theorem closedW_of_closedGraph {g : Graph} (h : ClosedGraph g) : ClosedW g := by
  intro u v w hw
  obtain ⟨adj, hu, hv⟩ := lookupW_eq_some hw
  exact h (u, adj) (alook_eq_some_mem hu) (v, w) (alook_eq_some_mem hv)

theorem goodGraph_closedGraph {g : Graph} (h : GoodGraph g) : ClosedGraph g := by
  intro p hp q hq
  have hsym := h.2.2.1 p hp q hq
  obtain ⟨adj, hu, _⟩ := lookupW_eq_some hsym
  simp [hu]

theorem goodGraph_posW {g : Graph} (h : GoodGraph g) : PosW g := by
  intro u v w hw
  obtain ⟨adj, hu, hv⟩ := lookupW_eq_some hw
  exact h.2.2.2 (u, adj) (alook_eq_some_mem hu) (v, w) (alook_eq_some_mem hv)

theorem goodGraph_adjNodup {g : Graph} (h : GoodGraph g) : AdjNodup g := by
  intro u adj hu
  exact h.2.1 (u, adj) (alook_eq_some_mem hu)

theorem adj_mem_lookupW {g : Graph} {u : String} {adj : List (String × Nat)}
    (hnd : AdjNodup g) (hadj : alook g u = some adj) {q : String × Nat} (hq : q ∈ adj) :
    lookupW g u q.1 = some q.2 := by
  unfold lookupW
  rw [hadj]
  exact alook_of_mem_nodup (hnd u adj hadj) (by rcases q with ⟨a, b⟩; exact hq)

theorem lookupW_mem_adj {g : Graph} {u v : String} {w : Nat}
    {adj : List (String × Nat)} (hadj : alook g u = some adj)
    (h : lookupW g u v = some w) : (v, w) ∈ adj := by
  obtain ⟨adj2, hu2, hv⟩ := lookupW_eq_some h
  rw [hadj] at hu2
  cases hu2
  exact alook_eq_some_mem hv

/-! ## The Dijkstra loop invariant (towards C1, C2, C10) -/

/-- The invariant maintained between iterations of the `while pq` loop of
`dijkstra.py`. -/
structure DInv (g : Graph) (s : String) (st : DijkState) : Prop where
  dist_s : st.dist s = 0
  ach : ∀ v, st.dist v ≠ ⊤ → ∃ n : Nat, st.dist v = (n : ℕ∞) ∧ PathCost g s v n
  pqv : ∀ d v, (d, v) ∈ st.pq →
    st.dist v ≤ (d : ℕ∞) ∧ PathCost g s v d ∧ (alook g v).isSome
  settled : ∀ x ∈ st.visited, ∀ n : Nat, PathCost g s x n → st.dist x ≤ (n : ℕ∞)
  relaxv : ∀ x ∈ st.visited, ∀ v w, lookupW g x v = some w →
    st.dist v ≤ st.dist x + (w : ℕ∞)
  inpq : ∀ v, v ∉ st.visited → st.dist v ≠ ⊤ →
    ∃ d : Nat, (d, v) ∈ st.pq ∧ st.dist v = (d : ℕ∞)
  prevdom : ∀ v, (alook st.prev v).isSome ↔ (st.dist v ≠ ⊤ ∧ v ≠ s)
  prevedge : ∀ v x, alook st.prev v = some x →
    ∃ w : Nat, lookupW g x v = some w ∧ st.dist v = st.dist x + (w : ℕ∞) ∧ x ∈ st.visited
  prevkeys : (keysOf st.prev).Nodup

/-- The invariant during the relaxation of the freshly settled vertex `u`,
popped with (exact) distance `d`: everything of `DInv` except that `u`'s own
edges are only relaxed as far as the loop has got. -/
structure RInv (g : Graph) (s u : String) (d : Nat) (st : DijkState) : Prop where
  dist_s : st.dist s = 0
  ach : ∀ v, st.dist v ≠ ⊤ → ∃ n : Nat, st.dist v = (n : ℕ∞) ∧ PathCost g s v n
  pqv : ∀ d2 v, (d2, v) ∈ st.pq →
    st.dist v ≤ (d2 : ℕ∞) ∧ PathCost g s v d2 ∧ (alook g v).isSome
  settled : ∀ x ∈ st.visited, ∀ n : Nat, PathCost g s x n → st.dist x ≤ (n : ℕ∞)
  relax_other : ∀ x ∈ st.visited, x ≠ u → ∀ v w, lookupW g x v = some w →
    st.dist v ≤ st.dist x + (w : ℕ∞)
  inpq : ∀ v, v ∉ st.visited → st.dist v ≠ ⊤ →
    ∃ d2 : Nat, (d2, v) ∈ st.pq ∧ st.dist v = (d2 : ℕ∞)
  prevdom : ∀ v, (alook st.prev v).isSome ↔ (st.dist v ≠ ⊤ ∧ v ≠ s)
  prevedge : ∀ v x, alook st.prev v = some x →
    ∃ w : Nat, lookupW g x v = some w ∧ st.dist v = st.dist x + (w : ℕ∞) ∧ x ∈ st.visited
  prevkeys : (keysOf st.prev).Nodup
  u_vis : u ∈ st.visited
  u_dist : st.dist u = (d : ℕ∞)
  u_path : PathCost g s u d

theorem relaxAll_cons (g : Graph) (s : String) (d : Nat) (u v : String) (w : Nat)
    (es : List (String × Nat)) (st : DijkState) :
    relaxAll g s d u ((v, w) :: es) st =
      if (alook g v).isSome ∨ v = s then
        if ((d + w : Nat) : ℕ∞) < st.dist v then
          relaxAll g s d u es
            { dist := fun x => if x = v then ((d + w : Nat) : ℕ∞) else st.dist x,
              prev := updA st.prev v u,
              pq := st.pq ++ [(d + w, v)],
              visited := st.visited }
        else relaxAll g s d u es st
      else none := rfl

theorem relaxAll_spec (g : Graph) (s u : String) (d : Nat) (hclosed : ClosedW g) :
    ∀ (es : List (String × Nat)) (st : DijkState),
    (∀ q ∈ es, lookupW g u q.1 = some q.2) →
    RInv g s u d st →
    ∃ st2, relaxAll g s d u es st = some st2 ∧ RInv g s u d st2 ∧
      (∀ q ∈ es, st2.dist q.1 ≤ ((d + q.2 : Nat) : ℕ∞)) ∧
      (∀ v, st2.dist v ≤ st.dist v) ∧
      (∀ x ∈ st.visited, st2.dist x = st.dist x) ∧
      st2.visited = st.visited ∧
      (∀ e ∈ st.pq, e ∈ st2.pq) ∧
      st2.pq.length ≤ st.pq.length + es.length := by
  intro es
  induction es with
  | nil =>
    intro st _ hinv
    exact ⟨st, rfl, hinv, by simp, fun v => le_rfl, fun x _ => rfl, rfl,
      fun e he => he, by simp⟩
  | cons q es ih =>
    obtain ⟨v, w⟩ := q
    intro st hes hinv
    have hqe : lookupW g u v = some w := hes (v, w) (List.mem_cons_self _ _)
    have hguard : (alook g v).isSome ∨ v = s := Or.inl (hclosed u v w hqe)
    rw [relaxAll_cons, if_pos hguard]
    by_cases hlt : ((d + w : Nat) : ℕ∞) < st.dist v
    · rw [if_pos hlt]
      have hvs : v ≠ s := by
        intro hvs
        rw [hvs, hinv.dist_s] at hlt
        simp at hlt
      have hpathv : PathCost g s v (d + w) := hinv.u_path.snoc hqe
      have hvvis : v ∉ st.visited := by
        intro hv
        have := hinv.settled v hv (d + w) hpathv
        exact absurd (lt_of_le_of_lt this hlt) (lt_irrefl _)
      have hvu : v ≠ u := fun hc => hvvis (hc ▸ hinv.u_vis)
      have hmono1 : ∀ x, (fun x => if x = v then ((d + w : Nat) : ℕ∞) else st.dist x) x
          ≤ st.dist x := by
        intro x
        by_cases hx : x = v
        · subst hx
          simp only [if_pos rfl]
          exact le_of_lt hlt
        · simp only [if_neg hx]
          exact le_rfl
      have hinv1 : RInv g s u d
          { dist := fun x => if x = v then ((d + w : Nat) : ℕ∞) else st.dist x,
            prev := updA st.prev v u,
            pq := st.pq ++ [(d + w, v)],
            visited := st.visited } := by
        refine ⟨?_, ?_, ?_, ?_, ?_, ?_, ?_, ?_, ?_, ?_, ?_, ?_⟩
        · dsimp only
          rw [if_neg (fun hc : s = v => hvs hc.symm)]
          exact hinv.dist_s
        · intro x hx
          dsimp only at hx ⊢
          by_cases hxv : x = v
          · subst hxv
            exact ⟨d + w, by simp, hpathv⟩
          · rw [if_neg hxv] at hx ⊢
            exact hinv.ach x hx
        · intro d2 x hmem
          dsimp only at hmem ⊢
          rcases List.mem_append.mp hmem with hmem | hmem
          · obtain ⟨h1, h2, h3⟩ := hinv.pqv d2 x hmem
            exact ⟨le_trans (hmono1 x) h1, h2, h3⟩
          · simp only [List.mem_singleton] at hmem
            injection hmem with ha hb
            subst ha
            subst hb
            exact ⟨by simp, hpathv, hclosed u x w hqe⟩
        · intro x hx n hp
          dsimp only at hx ⊢
          have hxv : x ≠ v := fun hc => hvvis (hc ▸ hx)
          rw [if_neg hxv]
          exact hinv.settled x hx n hp
        · intro x hx hxu y w2 hw2
          dsimp only at hx ⊢
          have hxv : x ≠ v := fun hc => hvvis (hc ▸ hx)
          rw [if_neg hxv]
          exact le_trans (hmono1 y) (hinv.relax_other x hx hxu y w2 hw2)
        · intro x hx hxt
          dsimp only at hx hxt ⊢
          by_cases hxv : x = v
          · subst hxv
            exact ⟨d + w, by simp, by simp⟩
          · rw [if_neg hxv] at hxt
            obtain ⟨d2, hd2, he2⟩ := hinv.inpq x hx hxt
            exact ⟨d2, List.mem_append_left _ hd2, by rw [if_neg hxv]; exact he2⟩
        · intro x
          dsimp only
          rw [alook_updA]
          by_cases hxv : x = v
          · subst hxv
            rw [if_pos rfl]
            constructor
            · intro _
              refine ⟨?_, hvs⟩
              rw [if_pos rfl]
              exact enat_coe_ne_top _
            · intro _
              rfl
          · rw [if_neg hxv, if_neg hxv]
            exact hinv.prevdom x
        · intro x y hxy
          dsimp only at hxy ⊢
          rw [alook_updA] at hxy
          by_cases hxv : x = v
          · subst hxv
            rw [if_pos rfl] at hxy
            injection hxy with hy
            subst hy
            refine ⟨w, hqe, ?_, hinv.u_vis⟩
            rw [if_pos rfl, if_neg (fun hc : u = x => hvu hc.symm), hinv.u_dist]
            exact Nat.cast_add d w
          · rw [if_neg hxv] at hxy
            obtain ⟨w2, he2, hd2, hy2⟩ := hinv.prevedge x y hxy
            have hyv : y ≠ v := fun hc => hvvis (hc ▸ hy2)
            refine ⟨w2, he2, ?_, hy2⟩
            rw [if_neg hxv, if_neg hyv]
            exact hd2
        · dsimp only
          exact nodup_keys_updA v u hinv.prevkeys
        · exact hinv.u_vis
        · dsimp only
          rw [if_neg (fun hc : u = v => hvu hc.symm)]
          exact hinv.u_dist
        · exact hinv.u_path
      obtain ⟨st2, heq, hinv2, hes2, hmono, hfix, hviseq, hsub, hlen⟩ :=
        ih _ (fun q hq => hes q (List.mem_cons_of_mem _ hq)) hinv1
      refine ⟨st2, heq, hinv2, ?_, ?_, ?_, ?_, ?_, ?_⟩
      · intro q hq
        rcases List.mem_cons.mp hq with hq | hq
        · subst hq
          have := hmono v
          dsimp only at this
          rw [if_pos rfl] at this
          exact this
        · exact hes2 q hq
      · intro x
        exact le_trans (hmono x) (hmono1 x)
      · intro x hx
        have h1 := hfix x (by dsimp only; exact hx)
        dsimp only at h1
        have hxv : x ≠ v := fun hc => hvvis (hc ▸ hx)
        rw [if_neg hxv] at h1
        exact h1
      · rw [hviseq]
      · intro e he
        exact hsub e (by dsimp only; exact List.mem_append_left _ he)
      · have : st2.pq.length ≤ (st.pq ++ [(d + w, v)]).length + es.length := hlen
        simp only [List.length_append, List.length_singleton] at this
        simp only [List.length_cons]
        omega
    · rw [if_neg hlt]
      obtain ⟨st2, heq, hinv2, hes2, hmono, hfix, hviseq, hsub, hlen⟩ :=
        ih st (fun q hq => hes q (List.mem_cons_of_mem _ hq)) hinv
      refine ⟨st2, heq, hinv2, ?_, hmono, hfix, hviseq, hsub, ?_⟩
      · intro q hq
        rcases List.mem_cons.mp hq with hq | hq
        · subst hq
          exact le_trans (hmono v) (not_lt.mp hlt)
        · exact hes2 q hq
      · simp only [List.length_cons]
        omega

/-! ## Coverage: any path to an unvisited target passes an unvisited vertex of
bounded tentative distance (towards C1) -/

theorem reach_bound (g : Graph) (st : DijkState)
    (hrel : ∀ x ∈ st.visited, ∀ v w, lookupW g x v = some w →
      st.dist v ≤ st.dist x + (w : ℕ∞)) :
    ∀ u t n, PathCost g u t n → ∀ a : Nat, st.dist u ≤ (a : ℕ∞) →
    t ∉ st.visited → ∃ y, y ∉ st.visited ∧ st.dist y ≤ ((a + n : Nat) : ℕ∞) := by
  intro u t n hp
  induction hp with
  | refl x =>
    intro a ha ht
    exact ⟨x, ht, by simpa using ha⟩
  | step hw hp2 ih =>
    rename_i u2 v2 t2 w c
    intro a ha ht
    by_cases hu : u2 ∈ st.visited
    · have hv : st.dist v2 ≤ st.dist u2 + (w : ℕ∞) := hrel u2 hu v2 w hw
      have hv2 : st.dist v2 ≤ ((a + w : Nat) : ℕ∞) := by
        calc st.dist v2 ≤ st.dist u2 + (w : ℕ∞) := hv
          _ ≤ (a : ℕ∞) + (w : ℕ∞) := add_le_add_right ha _
          _ = ((a + w : Nat) : ℕ∞) := (Nat.cast_add a w).symm
      obtain ⟨y, hy1, hy2⟩ := ih (a + w) hv2 ht
      refine ⟨y, hy1, ?_⟩
      have harith : a + w + c = a + (w + c) := by omega
      rwa [harith] at hy2
    · refine ⟨u2, hu, le_trans ha ?_⟩
      exact Nat.cast_le.mpr (by omega)

/-! ## The loop measure -/

def dMeasure (g : Graph) (st : DijkState) : Nat :=
  st.pq.length +
    ((g.filter (fun p => decide (p.1 ∉ st.visited))).map (fun p => 1 + p.2.length)).sum

theorem unvisited_sum_mono (g : Graph) (u : String) (visited : List String) :
    ((g.filter (fun p => decide (p.1 ∉ u :: visited))).map (fun p => 1 + p.2.length)).sum ≤
    ((g.filter (fun p => decide (p.1 ∉ visited))).map (fun p => 1 + p.2.length)).sum := by
  induction g with
  | nil => simp
  | cons p ps ih =>
    rw [List.filter_cons, List.filter_cons]
    by_cases h1 : p.1 ∈ u :: visited
    · rw [if_neg (fun hc => (of_decide_eq_true hc) h1)]
      by_cases h2 : p.1 ∈ visited
      · rw [if_neg (fun hc => (of_decide_eq_true hc) h2)]
        exact ih
      · rw [if_pos (decide_eq_true h2)]
        simp only [List.map_cons, List.sum_cons]
        have h3 := ih
        omega
    · have h2 : p.1 ∉ visited := fun hc => h1 (List.mem_cons_of_mem _ hc)
      rw [if_pos (decide_eq_true h1), if_pos (decide_eq_true h2)]
      simp only [List.map_cons, List.sum_cons]
      have h3 := ih
      omega

theorem unvisited_sum_drop (g : Graph) {u : String} {adj : List (String × Nat)}
    (visited : List String) (hu : u ∉ visited) (hadj : alook g u = some adj) :
    ((g.filter (fun p => decide (p.1 ∉ u :: visited))).map (fun p => 1 + p.2.length)).sum
      + (1 + adj.length)
    ≤ ((g.filter (fun p => decide (p.1 ∉ visited))).map (fun p => 1 + p.2.length)).sum := by
  induction g with
  | nil => exact Option.noConfusion hadj
  | cons p ps ih =>
    rw [List.filter_cons, List.filter_cons]
    by_cases hp : p.1 = u
    · have hadj2 : adj = p.2 := by
        rw [alook_cons, if_pos hp] at hadj
        exact (Option.some.inj hadj).symm
      subst hadj2
      have hpu : p.1 ∈ u :: visited := by rw [hp]; exact List.mem_cons_self _ _
      have hpv : p.1 ∉ visited := hp ▸ hu
      rw [if_neg (fun hc => (of_decide_eq_true hc) hpu), if_pos (decide_eq_true hpv)]
      simp only [List.map_cons, List.sum_cons]
      have h3 := unvisited_sum_mono ps u visited
      omega
    · rw [alook_cons, if_neg hp] at hadj
      by_cases hv : p.1 ∈ visited
      · have h3 : p.1 ∈ u :: visited := List.mem_cons_of_mem _ hv
        rw [if_neg (fun hc => (of_decide_eq_true hc) h3), if_neg (fun hc => (of_decide_eq_true hc) hv)]
        exact ih hadj
      · have h2 : p.1 ∉ u :: visited := by
          intro hc
          rcases List.mem_cons.mp hc with hc | hc
          · exact hp hc
          · exact hv hc
        rw [if_pos (decide_eq_true h2), if_pos (decide_eq_true hv)]
        simp only [List.map_cons, List.sum_cons]
        have h3 := ih hadj
        omega

/-! ## Final postcondition of the main loop -/

structure DFinal (g : Graph) (s : String) (dist : String → ℕ∞)
    (prev : List (String × String)) : Prop where
  dist_s : dist s = 0
  ach : ∀ v, dist v ≠ ⊤ → ∃ n : Nat, dist v = (n : ℕ∞) ∧ PathCost g s v n
  settled_fin : ∀ v, dist v ≠ ⊤ → ∀ n : Nat, PathCost g s v n → dist v ≤ (n : ℕ∞)
  relaxall : ∀ x v w, dist x ≠ ⊤ → lookupW g x v = some w →
    dist v ≤ dist x + (w : ℕ∞)
  prevdom : ∀ v, (alook prev v).isSome ↔ (dist v ≠ ⊤ ∧ v ≠ s)
  prevedge : ∀ v x, alook prev v = some x →
    ∃ w : Nat, lookupW g x v = some w ∧ dist v = dist x + (w : ℕ∞) ∧ dist x ≠ ⊤
  prevkeys : (keysOf prev).Nodup

theorem dijkstraLoop_succ (g : Graph) (s : String) (f : Nat) (st : DijkState) :
    dijkstraLoop g s (f + 1) st =
      match popMin st.pq with
      | none => some (st.dist, st.prev)
      | some (du, rest) =>
        if du.2 ∈ st.visited then
          dijkstraLoop g s f { st with pq := rest }
        else
          match alook g du.2 with
          | none => none
          | some adj =>
            match relaxAll g s du.1 du.2 adj
                { st with pq := rest, visited := du.2 :: st.visited } with
            | none => none
            | some st2 => dijkstraLoop g s f st2 := rfl

theorem dijkstraLoop_ok (g : Graph) (s : String) (hclosed : ClosedW g)
    (hnd : AdjNodup g) :
    ∀ (fuel : Nat) (st : DijkState), DInv g s st → dMeasure g st < fuel →
    ∃ dist prev, dijkstraLoop g s fuel st = some (dist, prev) ∧
      DFinal g s dist prev := by
  intro fuel
  induction fuel with
  | zero =>
    intro st _ hm
    omega
  | succ f ih =>
    intro st hinv hm
    rw [dijkstraLoop_succ]
    rcases hpop : popMin st.pq with _ | ⟨⟨d, u⟩, rest⟩
    · have hempty : st.pq = [] := (popMin_none_iff _).mp hpop
      simp only [hpop]
      refine ⟨st.dist, st.prev, rfl, ?_⟩
      have hvisf : ∀ v, st.dist v ≠ ⊤ → v ∈ st.visited := by
        intro v hv
        by_contra hnv
        obtain ⟨d2, hd2, _⟩ := hinv.inpq v hnv hv
        rw [hempty] at hd2
        cases hd2
      refine ⟨hinv.dist_s, hinv.ach, ?_, ?_, hinv.prevdom, ?_, hinv.prevkeys⟩
      · intro v hv n hp
        exact hinv.settled v (hvisf v hv) n hp
      · intro x v w hx hw
        exact hinv.relaxv x (hvisf x hx) v w hw
      · intro v x hvx
        obtain ⟨w, h1, h2, _⟩ := hinv.prevedge v x hvx
        refine ⟨w, h1, h2, ?_⟩
        have hvtop : st.dist v ≠ ⊤ := ((hinv.prevdom v).mp (by simp [hvx])).1
        intro hc
        rw [hc] at h2
        simp only [top_add] at h2
        exact hvtop h2
    · obtain ⟨hmem, hrest, hle⟩ := popMin_spec hpop
      subst hrest
      by_cases hvis : u ∈ st.visited
      · simp only [hpop]
        rw [if_pos (show (d, u).2 ∈ st.visited from hvis)]
        apply ih
        · refine ⟨hinv.dist_s, hinv.ach, ?_, hinv.settled, hinv.relaxv, ?_,
            hinv.prevdom, hinv.prevedge, hinv.prevkeys⟩
          · intro d2 v hm2
            exact hinv.pqv d2 v (List.mem_of_mem_erase hm2)
          · intro v hv ht
            obtain ⟨d2, hd2, he2⟩ := hinv.inpq v hv ht
            refine ⟨d2, ?_, he2⟩
            refine (List.mem_erase_of_ne ?_).mpr hd2
            intro hc
            injection hc with h1 h2
            exact hv (h2 ▸ hvis)
        · have herase := List.length_erase_of_mem hmem
          have hpos : 0 < st.pq.length := List.length_pos_of_mem hmem
          unfold dMeasure at hm ⊢
          dsimp only
          omega
      · have hpq := hinv.pqv d u hmem
        obtain ⟨hdle, hdpath, husome⟩ := hpq
        obtain ⟨adj, hadj⟩ := Option.isSome_iff_exists.mp husome
        have hdu : st.dist u = (d : ℕ∞) := by
          rcases lt_or_eq_of_le hdle with hlt | heq
          · exfalso
            have hut : st.dist u ≠ ⊤ := by
              intro hc
              rw [hc] at hlt
              exact absurd hlt (by simp)
            obtain ⟨d2, hd2mem, hd2eq⟩ := hinv.inpq u hvis hut
            have hdd2 : d ≤ d2 := hle (d2, u) hd2mem
            rw [hd2eq] at hlt
            have hlt2 : (d2 : ℕ∞) < (d : ℕ∞) := hlt
            have hlt3 : d2 < d := by exact_mod_cast hlt2
            omega
          · exact heq
        have hsettle : ∀ n : Nat, PathCost g s u n → st.dist u ≤ (n : ℕ∞) := by
          intro n hp
          obtain ⟨y, hy, hdy⟩ := reach_bound g st hinv.relaxv s u n hp 0
            (le_of_eq hinv.dist_s) hvis
          have hyt : st.dist y ≠ ⊤ := by
            intro hc
            rw [hc] at hdy
            exact absurd hdy (by simp)
          obtain ⟨dy, hdymem, hdyeq⟩ := hinv.inpq y hy hyt
          have hddy : d ≤ dy := hle (dy, y) hdymem
          rw [hdu]
          calc (d : ℕ∞) ≤ (dy : ℕ∞) := Nat.cast_le.mpr hddy
            _ = st.dist y := hdyeq.symm
            _ ≤ ((0 + n : Nat) : ℕ∞) := hdy
            _ = (n : ℕ∞) := by norm_num
        have hR : RInv g s u d
            { st with pq := st.pq.erase (d, u), visited := u :: st.visited } := by
          refine ⟨hinv.dist_s, hinv.ach, ?_, ?_, ?_, ?_, hinv.prevdom, ?_,
            hinv.prevkeys, ?_, hdu, hdpath⟩
          · intro d2 v hm2
            exact hinv.pqv d2 v (List.mem_of_mem_erase hm2)
          · intro x hx n hp
            rcases List.mem_cons.mp hx with hx | hx
            · subst hx
              exact hsettle n hp
            · exact hinv.settled x hx n hp
          · intro x hx hxu v w hw
            rcases List.mem_cons.mp hx with hx | hx
            · exact absurd hx hxu
            · exact hinv.relaxv x hx v w hw
          · intro v hv ht
            have hv2 : v ∉ st.visited := fun hc => hv (List.mem_cons_of_mem _ hc)
            have hvu : v ≠ u := fun hc => hv (hc ▸ List.mem_cons_self _ _)
            obtain ⟨d2, hd2, he2⟩ := hinv.inpq v hv2 ht
            refine ⟨d2, ?_, he2⟩
            refine (List.mem_erase_of_ne ?_).mpr hd2
            intro hc
            injection hc with h1 h2
            exact hvu h2
          · intro v x hvx
            obtain ⟨w, h1, h2, h3⟩ := hinv.prevedge v x hvx
            exact ⟨w, h1, h2, List.mem_cons_of_mem _ h3⟩
          · exact List.mem_cons_self _ _
        have hes : ∀ q ∈ adj, lookupW g u q.1 = some q.2 :=
          fun q hq => adj_mem_lookupW hnd hadj hq
        obtain ⟨st2, heq, hR2, hes2, hmono, hfix, hviseq, hsub, hlen⟩ :=
          relaxAll_spec g s u d hclosed adj _ hes hR
        simp only [hpop]
        rw [if_neg (show ¬ (d, u).2 ∈ st.visited from hvis)]
        simp only [hadj, heq]
        have hDInv2 : DInv g s st2 := by
          refine ⟨hR2.dist_s, hR2.ach, hR2.pqv, hR2.settled, ?_, hR2.inpq,
            hR2.prevdom, hR2.prevedge, hR2.prevkeys⟩
          intro x hx v w hw
          by_cases hxu : x = u
          · subst hxu
            have hmem2 : (v, w) ∈ adj := lookupW_mem_adj hadj hw
            have hb := hes2 (v, w) hmem2
            have hu2 : st2.dist x = (d : ℕ∞) := by
              have hfx := hfix x (List.mem_cons_self _ _)
              rw [hfx]
              exact hdu
            rw [hu2]
            calc st2.dist v ≤ ((d + w : Nat) : ℕ∞) := hb
              _ = (d : ℕ∞) + (w : ℕ∞) := Nat.cast_add d w
          · exact hR2.relax_other x hx hxu v w hw
        apply ih st2 hDInv2
        have hdrop := unvisited_sum_drop g st.visited hvis hadj
        have herase := List.length_erase_of_mem hmem
        have hpos : 0 < st.pq.length := List.length_pos_of_mem hmem
        have hvis2 : st2.visited = u :: st.visited := hviseq
        unfold dMeasure at hm ⊢
        rw [hvis2]
        have hlen2 : st2.pq.length ≤ (st.pq.erase (d, u)).length + adj.length := by
          simpa using hlen
        omega

/-! ## Initialisation -/

theorem dInv_init (g : Graph) (s : String) (hs : (alook g s).isSome) :
    DInv g s (initState s) := by
  refine ⟨?_, ?_, ?_, ?_, ?_, ?_, ?_, ?_, ?_⟩
  · show (if s = s then (0 : ℕ∞) else ⊤) = 0
    rw [if_pos rfl]
  · intro v hv
    by_cases hvs : v = s
    · subst hvs
      refine ⟨0, ?_, PathCost.refl v⟩
      show (if v = v then (0 : ℕ∞) else ⊤) = ((0 : Nat) : ℕ∞)
      rw [if_pos rfl]
      rfl
    · exfalso
      apply hv
      show (if v = s then (0 : ℕ∞) else ⊤) = ⊤
      rw [if_neg hvs]
  · intro d v hm
    have hdv : (d, v) = ((0 : Nat), s) := by
      rcases List.mem_cons.mp hm with h | h
      · exact h
      · cases h
    injection hdv with h1 h2
    subst h1
    subst h2
    refine ⟨?_, PathCost.refl v, hs⟩
    show (if v = v then (0 : ℕ∞) else ⊤) ≤ ((0 : Nat) : ℕ∞)
    rw [if_pos rfl]
    exact le_of_eq (by rfl)
  · intro x hx
    cases hx
  · intro x hx
    cases hx
  · intro v _ ht
    by_cases hvs : v = s
    · subst hvs
      refine ⟨0, List.mem_cons_self _ _, ?_⟩
      show (if v = v then (0 : ℕ∞) else ⊤) = ((0 : Nat) : ℕ∞)
      rw [if_pos rfl]
      rfl
    · exfalso
      apply ht
      show (if v = s then (0 : ℕ∞) else ⊤) = ⊤
      rw [if_neg hvs]
  · intro v
    constructor
    · intro hv
      exact absurd hv (by simp [alook])
    · rintro ⟨hv, hvs⟩
      exfalso
      apply hv
      show (if v = s then (0 : ℕ∞) else ⊤) = ⊤
      rw [if_neg hvs]
  · intro v x hvx
    cases hvx
  · exact List.nodup_nil

theorem sum_one_add (g : Graph) :
    (g.map (fun p => 1 + p.2.length)).sum =
      g.length + (g.map (fun p => p.2.length)).sum := by
  induction g with
  | nil => rfl
  | cons p ps ih =>
    simp only [List.map_cons, List.sum_cons, List.length_cons, ih]
    omega

theorem dMeasure_init (g : Graph) (s : String) :
    dMeasure g (initState s) < dijkFuel g := by
  unfold dMeasure initState dijkFuel sizeSum
  dsimp only
  have hfil : g.filter (fun p => decide (p.1 ∉ ([] : List String))) = g := by
    apply List.filter_eq_self.mpr
    intro a _
    simp
  rw [hfil, sum_one_add, List.length_singleton]
  omega

/-- Shared endpoint: on a neighbour-closed graph with duplicate-free adjacency
dictionaries, `dijkstra` returns and its result satisfies `DFinal`. -/
theorem dijkstra_final (g : Graph) (s : String) (hclosed : ClosedW g)
    (hnd : AdjNodup g) (hs : (alook g s).isSome) :
    ∃ dist prev, dijkstra g s = some (dist, prev) ∧ DFinal g s dist prev := by
  unfold dijkstra
  exact dijkstraLoop_ok g s hclosed hnd (dijkFuel g) (initState s)
    (dInv_init g s hs) (dMeasure_init g s)

/-- From `DFinal`, every path from the source bounds the final distance: the
returned value is a lower bound of all path costs. -/
theorem dfinal_upper {g : Graph} {s : String} {dist : String → ℕ∞}
    {prev : List (String × String)} (hf : DFinal g s dist prev) :
    ∀ v n, PathCost g s v n → dist v ≤ (n : ℕ∞) := by
  have key : ∀ u t n, PathCost g u t n → ∀ a : Nat, dist u ≤ (a : ℕ∞) →
      dist t ≤ ((a + n : Nat) : ℕ∞) := by
    intro u t n hp
    induction hp with
    | refl x =>
      intro a ha
      simpa using ha
    | step hw hp2 ih =>
      rename_i u2 v2 t2 w c
      intro a ha
      have hut : dist u2 ≠ ⊤ := by
        intro hc
        rw [hc] at ha
        exact absurd ha (by simp)
      have h1 : dist v2 ≤ dist u2 + (w : ℕ∞) := hf.relaxall u2 v2 w hut hw
      have h2 : dist v2 ≤ ((a + w : Nat) : ℕ∞) := by
        calc dist v2 ≤ dist u2 + (w : ℕ∞) := h1
          _ ≤ (a : ℕ∞) + (w : ℕ∞) := add_le_add_right ha _
          _ = ((a + w : Nat) : ℕ∞) := (Nat.cast_add a w).symm
      have h3 := ih (a + w) h2
      have harith : a + w + c = a + (w + c) := by omega
      rwa [harith] at h3
  intro v n hp
  have hv := key s v n hp 0 (le_of_eq hf.dist_s)
  simpa using hv

/-- C1: on every undirected graph with positive integer weights (every graph
`parse_topology` produces) and every source that is a key of the graph,
`dijkstra(graph, source)` returns, and in the returned distance map each
node's value is a lower bound of every path cost from the source and is
attained by an actual path (hence equals the minimum over all paths), while
every node unreachable from the source keeps the infinite distance and is
absent from the returned predecessor map. -/
theorem dijkstra_shortest_paths (g : Graph) (s : String) (hg : GoodGraph g)
    (hs : (alook g s).isSome) :
    ∃ dist prev, dijkstra g s = some (dist, prev) ∧
      (∀ v n, PathCost g s v n → dist v ≤ (n : ℕ∞)) ∧
      (∀ v, dist v ≠ ⊤ → ∃ n : Nat, dist v = (n : ℕ∞) ∧ PathCost g s v n) ∧
      (∀ v, (∀ n : Nat, ¬ PathCost g s v n) → dist v = ⊤ ∧ alook prev v = none) := by
  obtain ⟨dist, prev, heq, hf⟩ := dijkstra_final g s
    (closedW_of_closedGraph (goodGraph_closedGraph hg)) (goodGraph_adjNodup hg) hs
  refine ⟨dist, prev, heq, dfinal_upper hf, hf.ach, ?_⟩
  intro v hnp
  have htop : dist v = ⊤ := by
    by_contra hc
    obtain ⟨n, _, hp⟩ := hf.ach v hc
    exact hnp n hp
  refine ⟨htop, ?_⟩
  rcases halk : alook prev v with _ | x
  · rfl
  · exfalso
    have hsome : (alook prev v).isSome := by rw [halk]; rfl
    exact ((hf.prevdom v).mp hsome).1 htop

/-- C1, instantiated at the specification's worked example and source `N1`. -/
theorem dijkstra_shortest_paths_witness :
    GoodGraph gEx ∧ (alook gEx "N1").isSome ∧
    (∃ dist prev, dijkstra gEx "N1" = some (dist, prev) ∧
      (∀ v n, PathCost gEx "N1" v n → dist v ≤ (n : ℕ∞)) ∧
      (∀ v, dist v ≠ ⊤ → ∃ n : Nat, dist v = (n : ℕ∞) ∧ PathCost gEx "N1" v n) ∧
      (∀ v, (∀ n : Nat, ¬ PathCost gEx "N1" v n) →
        dist v = ⊤ ∧ alook prev v = none)) :=
  ⟨by decide, by decide, dijkstra_shortest_paths gEx "N1" (by decide) (by decide)⟩

/-! ## Totality of `dijkstra.py`'s loop on neighbour-closed graphs (towards C10) -/

theorem relaxAll_total (g : Graph) (s : String) (d : Nat) (u : String) :
    ∀ (es : List (String × Nat)) (st : DijkState),
    (∀ q ∈ es, (alook g q.1).isSome) →
    ∃ st2, relaxAll g s d u es st = some st2 ∧
      (∀ e ∈ st2.pq, e ∈ st.pq ∨ (alook g e.2).isSome) ∧
      st2.visited = st.visited ∧
      st2.pq.length ≤ st.pq.length + es.length := by
  intro es
  induction es with
  | nil =>
    intro st _
    exact ⟨st, rfl, fun e he => Or.inl he, rfl, by omega⟩
  | cons q rest ih =>
    rcases q with ⟨v, w⟩
    intro st hes
    rw [relaxAll_cons]
    have hv : (alook g v).isSome := hes (v, w) (List.mem_cons_self _ _)
    rw [if_pos (Or.inl hv)]
    by_cases hlt : ((d + w : Nat) : ℕ∞) < st.dist v
    · rw [if_pos hlt]
      obtain ⟨st2, heq, hmem, hvis, hlen⟩ :=
        ih _ (fun q hq => hes q (List.mem_cons_of_mem _ hq))
      refine ⟨st2, heq, ?_, hvis, ?_⟩
      · intro e he
        rcases hmem e he with he2 | he2
        · rcases List.mem_append.mp he2 with h3 | h3
          · exact Or.inl h3
          · have he3 : e = (d + w, v) := by simpa using h3
            rw [he3]
            exact Or.inr hv
        · exact Or.inr he2
      · have hlen2 : st2.pq.length ≤ st.pq.length + 1 + rest.length := by
          simpa using hlen
        simp only [List.length_cons]
        omega
    · rw [if_neg hlt]
      obtain ⟨st2, heq, hmem, hvis, hlen⟩ :=
        ih st (fun q hq => hes q (List.mem_cons_of_mem _ hq))
      refine ⟨st2, heq, hmem, hvis, ?_⟩
      simp only [List.length_cons]
      omega

theorem dijkstraLoop_total (g : Graph) (s : String) (hcg : ClosedGraph g) :
    ∀ (fuel : Nat) (st : DijkState),
    (∀ e ∈ st.pq, (alook g e.2).isSome) → dMeasure g st < fuel →
    (dijkstraLoop g s fuel st).isSome := by
  intro fuel
  induction fuel with
  | zero =>
    intro st _ hm
    omega
  | succ f ih =>
    intro st hpq hm
    rw [dijkstraLoop_succ]
    rcases hpop : popMin st.pq with _ | ⟨⟨d, u⟩, rest⟩
    · simp only [hpop]
      rfl
    · obtain ⟨hmem, hrest, hle⟩ := popMin_spec hpop
      subst hrest
      by_cases hvis : u ∈ st.visited
      · simp only [hpop]
        rw [if_pos (show (d, u).2 ∈ st.visited from hvis)]
        apply ih
        · intro e he
          exact hpq e (List.mem_of_mem_erase he)
        · have herase := List.length_erase_of_mem hmem
          have hpos : 0 < st.pq.length := List.length_pos_of_mem hmem
          unfold dMeasure at hm ⊢
          dsimp only
          omega
      · have hu : (alook g u).isSome := hpq (d, u) hmem
        obtain ⟨adj, hadj⟩ := Option.isSome_iff_exists.mp hu
        have hadjmem : (u, adj) ∈ g := alook_eq_some_mem hadj
        have hes : ∀ q ∈ adj, (alook g q.1).isSome :=
          fun q hq => hcg (u, adj) hadjmem q hq
        obtain ⟨st2, heq, hmem2, hvis2, hlen2⟩ :=
          relaxAll_total g s d u adj
            { st with pq := st.pq.erase (d, u), visited := u :: st.visited } hes
        simp only [hpop]
        rw [if_neg (show ¬ (d, u).2 ∈ st.visited from hvis)]
        simp only [hadj, heq]
        apply ih
        · intro e he
          rcases hmem2 e he with h3 | h3
          · exact hpq e (List.mem_of_mem_erase h3)
          · exact h3
        · have hdrop := unvisited_sum_drop g st.visited hvis hadj
          have herase := List.length_erase_of_mem hmem
          have hpos : 0 < st.pq.length := List.length_pos_of_mem hmem
          have hv3 : st2.visited = u :: st.visited := hvis2
          have hlen3 : st2.pq.length ≤ (st.pq.erase (d, u)).length + adj.length := by
            simpa using hlen2
          unfold dMeasure at hm ⊢
          rw [hv3]
          omega

/-- C10: `dijkstra` of `dijkstra.py` is total on every graph closed under
neighbours together with any source that is a key (the unguarded `graph[u]`
read always succeeds and the loop terminates); the closure precondition is
genuinely required — on the unclosed graph `gBad` the same function raises
(`none`) while the guarded `simulator.py` variant still returns a value. -/
theorem dijkstra_totality :
    (∀ (g : Graph) (s : String), ClosedGraph g → (alook g s).isSome →
      (dijkstra g s).isSome) ∧
    dijkstra gBad "N1" = none ∧
    simulator_dijkstra gBad "N1" =
      ([("N1", (0 : ℕ∞)), ("N2", (5 : ℕ∞))], [("N2", "N1")]) := by
  refine ⟨?_, ?_, ?_⟩
  · intro g s hcg hs
    unfold dijkstra
    apply dijkstraLoop_total g s hcg (dijkFuel g) (initState s) ?_ (dMeasure_init g s)
    intro e he
    have he2 : e = ((0 : Nat), s) := by
      rcases List.mem_cons.mp he with h | h
      · exact h
      · cases h
    rw [he2]
    exact hs
  · rfl
  · decide

/-- C10's positive half, instantiated at the worked example: the closed graph
`gEx` with source `N1` satisfies the preconditions and `dijkstra` returns. -/
theorem dijkstra_totality_witness :
    ClosedGraph gEx ∧ (alook gEx "N1").isSome ∧ (dijkstra gEx "N1").isSome :=
  ⟨by decide, by decide, dijkstra_totality.1 gEx "N1" (by decide) (by decide)⟩

/-! ## `build_next_hop`: termination and correctness of the backwards walk
(towards C2) -/

theorem filter_len_le {α : Type} (p q : α → Bool) :
    ∀ l : List α, (∀ a ∈ l, p a = true → q a = true) →
    (l.filter p).length ≤ (l.filter q).length := by
  intro l
  induction l with
  | nil =>
    intro _
    simp
  | cons a as ih =>
    intro himp
    rw [List.filter_cons, List.filter_cons]
    have hih := ih (fun x hx hp => himp x (List.mem_cons_of_mem _ hx) hp)
    cases hpa : p a
    · cases hqa : q a
      · rw [if_neg Bool.false_ne_true, if_neg Bool.false_ne_true]
        exact hih
      · rw [if_neg Bool.false_ne_true, if_pos rfl]
        simp only [List.length_cons]
        omega
    · have hqa : q a = true := himp a (List.mem_cons_self _ _) hpa
      rw [if_pos hqa, if_pos (rfl : true = true)]
      simp only [List.length_cons]
      omega

theorem filter_len_lt {α : Type} (p q : α → Bool) :
    ∀ l : List α, (∀ a ∈ l, p a = true → q a = true) →
    ∀ x ∈ l, q x = true → p x = false →
    (l.filter p).length < (l.filter q).length := by
  intro l
  induction l with
  | nil =>
    intro _ x hx
    cases hx
  | cons a as ih =>
    intro himp x hx hqx hpx
    rw [List.filter_cons, List.filter_cons]
    have himp2 : ∀ b ∈ as, p b = true → q b = true :=
      fun b hb hp => himp b (List.mem_cons_of_mem _ hb) hp
    rcases List.mem_cons.mp hx with hxa | hxa
    · subst hxa
      rw [hpx, hqx, if_neg Bool.false_ne_true, if_pos rfl]
      simp only [List.length_cons]
      have hle := filter_len_le p q as himp2
      omega
    · cases hpa : p a
      · cases hqa : q a
        · rw [if_neg Bool.false_ne_true, if_neg Bool.false_ne_true]
          exact ih himp2 x hxa hqx hpx
        · rw [if_neg Bool.false_ne_true, if_pos rfl]
          simp only [List.length_cons]
          have hlt := ih himp2 x hxa hqx hpx
          omega
      · have hqa : q a = true := himp a (List.mem_cons_self _ _) hpa
        rw [if_pos hqa, if_pos (rfl : true = true)]
        simp only [List.length_cons]
        have hlt := ih himp2 x hxa hqx hpx
        omega

theorem walkToSource_succ (source : String) (prev : List (String × String))
    (f : Nat) (cur : String) :
    walkToSource source prev (f + 1) cur =
      match alook prev cur with
      | none => some cur
      | some p => if p = source then some cur else walkToSource source prev f p := rfl

/-- Termination and shape of the `while cur in prev and prev[cur] != source`
walk: whenever the predecessor relation strictly decreases `dist`, the walk
returns, and the visited nodes form a `prev`-chain of strictly increasing
distance from the returned node back up to the starting node. -/
theorem walkToSource_spec (source : String) (prev : List (String × String))
    (dist : String → ℕ∞)
    (hdec : ∀ v x, alook prev v = some x → dist x < dist v) :
    ∀ (fuel : Nat) (v : String),
    ((keysOf prev).filter (fun k => decide (dist k ≤ dist v))).length < fuel →
    ∃ (r : String) (p : List String),
      walkToSource source prev fuel v = some r ∧
      (r :: p).Chain' (fun a b => alook prev b = some a ∧ dist a < dist b) ∧
      (r :: p).getLast? = some v ∧
      (alook prev r = none ∨ alook prev r = some source) := by
  intro fuel
  induction fuel with
  | zero =>
    intro v hv
    omega
  | succ f ih =>
    intro v hv
    rw [walkToSource_succ]
    rcases hal : alook prev v with _ | x
    · exact ⟨v, [], rfl, List.chain'_singleton v, rfl, Or.inl hal⟩
    · by_cases hx : x = source
      · refine ⟨v, [], ?_, List.chain'_singleton v, rfl, Or.inr (hx ▸ hal)⟩
        show (if x = source then some v else walkToSource source prev f x) = some v
        rw [if_pos hx]
      · have hvx : dist x < dist v := hdec v x hal
        have hvk : v ∈ keysOf prev :=
          List.mem_map_of_mem Prod.fst (alook_eq_some_mem hal)
        have hbound :
            ((keysOf prev).filter (fun k => decide (dist k ≤ dist x))).length <
            ((keysOf prev).filter (fun k => decide (dist k ≤ dist v))).length := by
          apply filter_len_lt
          · intro a _ ha
            have h1 : dist a ≤ dist x := of_decide_eq_true ha
            exact decide_eq_true (le_trans h1 (le_of_lt hvx))
          · exact hvk
          · exact decide_eq_true (le_refl (dist v))
          · exact decide_eq_false (not_le.mpr hvx)
        obtain ⟨r, p, hw, hchain, hlast, hterm⟩ := ih x (by omega)
        refine ⟨r, p ++ [v], ?_, ?_, ?_, hterm⟩
        · show (if x = source then some v else walkToSource source prev f x) = some r
          rw [if_neg hx]
          exact hw
        · rw [show r :: (p ++ [v]) = (r :: p) ++ [v] from rfl]
          apply List.Chain'.append hchain (List.chain'_singleton v)
          intro a ha b hb
          have hb2 : b = v := by
            have h4 : v = b := by simpa using hb
            exact h4.symm
          have ha2 : a = x := by
            rw [hlast] at ha
            have h4 : x = a := by simpa using ha
            exact h4.symm
          rw [ha2, hb2]
          exact ⟨hal, hvx⟩
        · rw [show r :: (p ++ [v]) = (r :: p) ++ [v] from rfl]
          exact List.getLast?_concat _

/-- What `build_next_hop` guarantees for an entry `dest ↦ h1` of its table:
`dest` is not the source, the predecessor of `h1` is the source, and the
`prev`-chain from the source through `h1` reaches `dest` with strictly
increasing distance from the source — i.e. following the hops towards `dest`
strictly decreases the remaining distance and terminates at `dest`. -/
def GoodHop (source : String) (prev : List (String × String))
    (dist : String → ℕ∞) (dest h1 : String) : Prop :=
  dest ≠ source ∧ alook prev h1 = some source ∧
  ∃ p : List String,
    (source :: h1 :: p).Chain' (fun a b => alook prev b = some a ∧ dist a < dist b) ∧
    (source :: h1 :: p).getLast? = some dest

theorem buildNextHopGo_cons (source : String) (prev : List (String × String))
    (dest : String) (rest : List String) (acc : List (String × String)) :
    buildNextHopGo source prev (dest :: rest) acc =
      if dest = source then buildNextHopGo source prev rest acc
      else
        match walkToSource source prev (prev.length + 1) dest with
        | none => none
        | some cur =>
          if alook prev cur = some source then
            buildNextHopGo source prev rest (updA acc dest cur)
          else buildNextHopGo source prev rest acc := rfl

theorem buildNextHopGo_ok (source : String) (prev : List (String × String))
    (dist : String → ℕ∞)
    (hdec : ∀ v x, alook prev v = some x → dist x < dist v) :
    ∀ (dests : List String) (acc : List (String × String)),
    (∀ dest h1, alook acc dest = some h1 → GoodHop source prev dist dest h1) →
    ∃ table, buildNextHopGo source prev dests acc = some table ∧
      (∀ dest h1, alook table dest = some h1 → GoodHop source prev dist dest h1) := by
  intro dests
  induction dests with
  | nil =>
    intro acc hacc
    exact ⟨acc, rfl, hacc⟩
  | cons dest rest ih =>
    intro acc hacc
    rw [buildNextHopGo_cons]
    by_cases hds : dest = source
    · rw [if_pos hds]
      exact ih acc hacc
    · rw [if_neg hds]
      have hbound :
          ((keysOf prev).filter (fun k => decide (dist k ≤ dist dest))).length <
          prev.length + 1 := by
        have h1 := List.length_filter_le
          (fun k => decide (dist k ≤ dist dest)) (keysOf prev)
        have h2 : (keysOf prev).length = prev.length := List.length_map _ _
        omega
      obtain ⟨r, p, hw, hchain, hlast, _⟩ :=
        walkToSource_spec source prev dist hdec (prev.length + 1) dest hbound
      simp only [hw]
      by_cases hr : alook prev r = some source
      · rw [if_pos hr]
        apply ih
        intro dest2 h2 hd2
        rw [alook_updA] at hd2
        by_cases hdd : dest2 = dest
        · rw [if_pos hdd] at hd2
          injection hd2 with hd3
          subst hd3
          subst hdd
          refine ⟨hds, hr, p, ?_, ?_⟩
          · apply List.chain'_cons.mpr
            exact ⟨⟨hr, hdec r source hr⟩, hchain⟩
          · rw [List.getLast?_cons_cons]
            exact hlast
        · rw [if_neg hdd] at hd2
          exact hacc dest2 h2 hd2
      · rw [if_neg hr]
        exact ih acc hacc

/-- C2: for the predecessor map produced by `dijkstra` on a positive-weight
undirected graph, `build_next_hop(source, prev)` returns a table that never
contains the source as a key; every value is a direct neighbour of the source
whose predecessor is the source, and the `prev`-chain from the source through
that first hop reaches the destination with strictly increasing distance —
following next hops towards the destination strictly decreases the remaining
distance at every step and terminates at the destination. -/
theorem build_next_hop_correct (g : Graph) (s : String) (hg : GoodGraph g)
    (hs : (alook g s).isSome) :
    ∃ dist prev table,
      dijkstra g s = some (dist, prev) ∧
      build_next_hop s prev = some table ∧
      alook table s = none ∧
      ∀ dest h1, alook table dest = some h1 →
        (∃ w, lookupW g s h1 = some w) ∧ GoodHop s prev dist dest h1 := by
  obtain ⟨dist, prev, heq, hf⟩ := dijkstra_final g s
    (closedW_of_closedGraph (goodGraph_closedGraph hg)) (goodGraph_adjNodup hg) hs
  have hdec : ∀ v x, alook prev v = some x → dist x < dist v := by
    intro v x h
    obtain ⟨w, hw, hsum, hxt⟩ := hf.prevedge v x h
    obtain ⟨n, hn⟩ := enat_exists_of_ne_top hxt
    have hw1 : 1 ≤ w := goodGraph_posW hg x v w hw
    rw [hsum, hn]
    rw [show ((n : ℕ∞) + (w : ℕ∞)) = ((n + w : Nat) : ℕ∞) from (Nat.cast_add n w).symm]
    exact_mod_cast (show n < n + w by omega)
  obtain ⟨table, htab, hgood⟩ :=
    buildNextHopGo_ok s prev dist hdec (keysOf prev) []
      (fun dest h1 hd => absurd hd (by simp [alook]))
  refine ⟨dist, prev, table, heq, htab, ?_, ?_⟩
  · rcases hts : alook table s with _ | h1
    · rfl
    · exact absurd rfl (hgood s h1 hts).1
  · intro dest h1 hd
    have hgh := hgood dest h1 hd
    obtain ⟨w, hw, _, _⟩ := hf.prevedge h1 s hgh.2.1
    exact ⟨⟨w, hw⟩, hgh⟩

/-- C2, instantiated at the worked example with source `N1`. -/
theorem build_next_hop_correct_witness :
    GoodGraph gEx ∧ (alook gEx "N1").isSome ∧
    (∃ dist prev table,
      dijkstra gEx "N1" = some (dist, prev) ∧
      build_next_hop "N1" prev = some table ∧
      alook table "N1" = none ∧
      ∀ dest h1, alook table dest = some h1 →
        (∃ w, lookupW gEx "N1" h1 = some w) ∧ GoodHop "N1" prev dist dest h1) :=
  ⟨by decide, by decide, build_next_hop_correct gEx "N1" (by decide) (by decide)⟩

end Redes
